import Mathlib

/-!
# Verification of the tripsnap itinerary-planning core

This file gives a shallow embedding, in Lean 4, of the itinerary-planning
core of the tripsnap repository (the `chatbot-model` Python package):

* `time_module.py` — business-hours parsing, the weekly business-hours
  index, `is_open_at`, `is_available_in_period`;
* `bakery_rag_chatbot.py` — `_is_public_holiday`,
  `_get_expected_wait_minutes`, `_max_leg_distance_km`, and the cost-greedy
  route sequencer `_order_bakeries_by_route_distance`;
* `ranking_module.py` — the menu-keyword cut of `rank_bakeries`;
* `ranking_utils.py` — `_extract_brand_key`, `_is_coffee_dominant_for_tour`
  and the flagship-tour branch of `rank_bakeries`;
* `subway_tour_planner.py` — `_group_bakeries_by_station`,
  `_evaluate_interval`, `build_subway_contiguous_tour`.

Python floats are modelled as `ℚ`; Python ints as `ℕ`/`ℤ`; dictionaries as
association lists; fallible lookups as `Option`.  Where a function of the
source is impure (`datetime.now()`) the impure input is passed explicitly.
Real-valued geometry (`haversine_distance_km`) is abstracted as a distance
parameter `dist : Coord → Coord → ℚ`, exactly as the sequencer consumes it.
-/

namespace Tripsnap

/-! ## Clock times and dates (`datetime.time`, `datetime.date`) -/

/-- A clock time, as Python's `datetime.time` restricted to hour/minute
(the source never constructs seconds). Ordered lexicographically, matching
Python's comparison of `time` objects. -/
structure ClockTime where
  hour : Nat
  minute : Nat
deriving Repr, DecidableEq

/-- Total minutes since midnight; `t₁ ≤ t₂` in Python iff
`t₁.totalMinutes ≤ t₂.totalMinutes` (for in-range times). -/
def ClockTime.totalMinutes (t : ClockTime) : Nat := t.hour * 60 + t.minute

/-- The lexicographic `≤` of `datetime.time` (hour, then minute). -/
def ClockTime.le (a b : ClockTime) : Bool :=
  a.hour < b.hour || (a.hour == b.hour && a.minute ≤ b.minute)

/-- A calendar date (`datetime.date`). -/
structure Date where
  year : Nat
  month : Nat
  day : Nat
deriving Repr, DecidableEq

/-- Days since civil epoch 0000-03-01, Hinnant's `days_from_civil`
algorithm over `ℕ` (valid for year ≥ 1, which covers every date the
source can construct). Used to derive the weekday exactly as
`datetime.date.weekday` does. -/
def Date.toDays (d : Date) : Nat :=
  let y := if d.month ≤ 2 then d.year - 1 else d.year
  let era := y / 400
  let yoe := y - era * 400
  let mp := if d.month > 2 then d.month - 3 else d.month + 9
  let doy := (153 * mp + 2) / 5 + (d.day - 1)
  let doe := yoe * 365 + yoe / 4 - yoe / 100 + doy
  era * 146097 + doe

/-- `datetime.date.weekday()`: Monday = 0 … Sunday = 6.
Offset 2 calibrates the epoch: 1970-01-01 (`toDays = 719468`) was a
Thursday (weekday 3). -/
def Date.weekday (d : Date) : Nat := (d.toDays + 2) % 7

/-- Gregorian leap-year test (as `calendar.isleap`). -/
def isLeapYear (y : Nat) : Bool :=
  (y % 4 == 0 && y % 100 != 0) || y % 400 == 0

/-- Number of days in a month of a given year. -/
def daysInMonth (y m : Nat) : Nat :=
  if m = 2 then (if isLeapYear y then 29 else 28)
  else if m = 4 ∨ m = 6 ∨ m = 9 ∨ m = 11 then 30
  else 31

/-- `date + timedelta(days=1)`. -/
def Date.next (d : Date) : Date :=
  if d.day < daysInMonth d.year d.month then ⟨d.year, d.month, d.day + 1⟩
  else if d.month < 12 then ⟨d.year, d.month + 1, 1⟩
  else ⟨d.year + 1, 1, 1⟩

/-- `d₁ ≤ d₂` for `datetime.date` (year, month, day lexicographic). -/
def Date.le (a b : Date) : Bool :=
  a.year < b.year ||
    (a.year == b.year &&
      (a.month < b.month || (a.month == b.month && a.day ≤ b.day)))

/-- An instant (`datetime.datetime`), as a date plus a clock time. -/
structure Instant where
  date : Date
  time : ClockTime
deriving Repr, DecidableEq

/-! ## `schemas.DateTimeConstraint` -/

/-- The date/time constraint extracted from a query
(`schemas.DateTimeConstraint`). -/
structure DateTimeConstraint where
  has_date_range : Bool
  start_date : Option Date
  end_date : Option Date
  start_time : Option ClockTime
  end_time : Option ClockTime
  use_now_if_missing : Bool
deriving Repr, DecidableEq

/-! ## Wait-time estimator (`bakery_rag_chatbot.py`)

The `waiting_prediction` JSON subtree is modelled structurally.  A numeric
field whose string value fails `float(...)` makes the source set the
running base to `0.0`, which behaves identically to the field holding the
value `0.0`; so every numeric field is an `Option ℚ` (`none` = key
absent). -/

/-- One time-band entry of `predictions[weekday]["by_time"]`. -/
structure WaitBand where
  predicted_wait_minutes : Option ℚ
deriving Repr, DecidableEq

/-- One weekday entry of `waiting_prediction["predictions"]`. -/
structure DayPrediction where
  by_time : List (String × WaitBand)
  predicted_wait_minutes : Option ℚ
deriving Repr, DecidableEq

/-- The `waiting_prediction` subtree of a POI. -/
structure WaitingPrediction where
  predictions : List (String × DayPrediction)
  overall_average_minutes : Option ℚ
deriving Repr, DecidableEq

/-- Association-list lookup, as Python `dict` access by key. -/
def alookup {α : Type} (l : List (String × α)) (k : String) : Option α :=
  (l.find? (fun p => p.1 == k)).map (·.2)

/-- `KOREAN_WEEKDAY_MAP` of `time_module.py`. -/
def koreanWeekdayMap (wd : Nat) : Option String :=
  match wd with
  | 0 => some "월요일"
  | 1 => some "화요일"
  | 2 => some "수요일"
  | 3 => some "목요일"
  | 4 => some "금요일"
  | 5 => some "토요일"
  | 6 => some "일요일"
  | _ => none

/-- `BakeryRAGChatbot._is_public_holiday`: membership of (month, day) in
the fixed solar-holiday set. -/
def isPublicHoliday (d : Date) : Bool :=
  [(1, 1), (3, 1), (5, 5), (6, 6), (8, 15), (10, 3), (10, 9), (12, 25)].contains
    (d.month, d.day)

/-- The reference date/time resolved at the top of
`_get_expected_wait_minutes`: the constraint's start if an explicit range
exists, else `now` when `use_now_if_missing`, else none.  `now` is the
value `datetime.now()` would return, passed explicitly. -/
def resolveReference (c : DateTimeConstraint) (now : Instant) :
    Option Date × Option ClockTime :=
  if c.has_date_range && c.start_date.isSome then
    (c.start_date, c.start_time.orElse fun _ => c.end_time)
  else if c.use_now_if_missing then
    (some now.date, some now.time)
  else
    (none, none)

/-- The time band of `_get_expected_wait_minutes`:
`"lunch"` for hour ∈ [10, 15), `"dinner"` for hour ∈ [17, 21). -/
def timeBandOf (t : Option ClockTime) : Option String :=
  match t with
  | none => none
  | some t =>
    if 10 ≤ t.hour ∧ t.hour < 15 then some "lunch"
    else if 17 ≤ t.hour ∧ t.hour < 21 then some "dinner"
    else none

/-- The sequential base-wait resolution of `_get_expected_wait_minutes`:
weekday+band value, then weekday-level value (if the running base ≤ 0),
then the overall average (if the running base ≤ 0). -/
def resolveBaseWait (wp : WaitingPrediction) (refDate : Option Date)
    (refTime : Option ClockTime) : ℚ :=
  let weekdayName := refDate.bind fun d => koreanWeekdayMap d.weekday
  let band := timeBandOf refTime
  let base0 : ℚ := 0
  let base1 : ℚ :=
    match weekdayName.bind (alookup wp.predictions) with
    | none => base0
    | some dayPred =>
      let b1 :=
        match band.bind (alookup dayPred.by_time) with
        | none => base0
        | some wb => (wb.predicted_wait_minutes).getD base0
      if b1 ≤ 0 then (dayPred.predicted_wait_minutes).getD b1 else b1
  if base1 ≤ 0 then (wp.overall_average_minutes).getD base1 else base1

/-- The multiplicative factor block of `_get_expected_wait_minutes`:
weekend ×1.2 and holiday ×1.3 (only when a reference date resolved),
then exactly one review-count tier. -/
def waitFactor (refDate : Option Date) (totalReviews : Nat) : ℚ :=
  let f1 : ℚ :=
    match refDate with
    | none => 1
    | some d =>
      (if 5 ≤ d.weekday then (6 : ℚ) / 5 else 1) *
        (if isPublicHoliday d then (13 : ℚ) / 10 else 1)
  let f2 : ℚ :=
    if 2000 ≤ totalReviews then (13 : ℚ) / 10
    else if 1000 ≤ totalReviews then (6 : ℚ) / 5
    else if 500 ≤ totalReviews then (11 : ℚ) / 10
    else 1
  f1 * f2

/-- `BakeryRAGChatbot._get_expected_wait_minutes`.  `totalReviews` is
`self.review_stats_cache.get(name, (0, {}))[0]` for the POI's name. -/
def getExpectedWaitMinutes (wp : WaitingPrediction)
    (c : DateTimeConstraint) (now : Instant) (totalReviews : Nat) : ℚ :=
  let rd := (resolveReference c now).1
  let rt := (resolveReference c now).2
  let baseWait := resolveBaseWait wp rd rt
  if baseWait ≤ 0 then 0 else baseWait * waitFactor rd totalReviews

/-! ### Claim-side restatement of the wait-time contract -/

/-- The weekday entry of the predictions table for the reference date. -/
def specDayPred (wp : WaitingPrediction) (rd : Option Date) :
    Option DayPrediction :=
  (rd.bind fun d => koreanWeekdayMap d.weekday).bind (alookup wp.predictions)

/-- Lookup 1 of the spec: the weekday + time-band predicted wait. -/
def specLookupBand (wp : WaitingPrediction) (rd : Option Date)
    (rt : Option ClockTime) : Option ℚ :=
  ((timeBandOf rt).bind fun band =>
    (specDayPred wp rd).bind fun dp => alookup dp.by_time band).bind
      (·.predicted_wait_minutes)

/-- Lookup 2 of the spec: the weekday-level predicted wait. -/
def specLookupDay (wp : WaitingPrediction) (rd : Option Date) : Option ℚ :=
  (specDayPred wp rd).bind (·.predicted_wait_minutes)

/-- The three base-wait lookups in the order the specification lists
them: weekday+time-band, weekday-level, overall average. -/
def specWaitLookups (wp : WaitingPrediction) (rd : Option Date)
    (rt : Option ClockTime) : List (Option ℚ) :=
  [specLookupBand wp rd rt, specLookupDay wp rd, wp.overall_average_minutes]

/-- First lookup result that is present and strictly positive; `none`
when every lookup fails or yields a value ≤ 0. -/
def firstPositive : List (Option ℚ) → Option ℚ
  | [] => none
  | none :: rest => firstPositive rest
  | some v :: rest => if 0 < v then some v else firstPositive rest

/-- Spec-side wait-time function, written from the specification's words:
0 when no base wait resolves, else the resolved base times ×1.2 for a
Saturday/Sunday reference date, ×1.3 for a fixed solar-calendar holiday,
and exactly one review-count tier factor, compounded. -/
def expectedWaitSpec (wp : WaitingPrediction) (c : DateTimeConstraint)
    (now : Instant) (totalReviews : Nat) : ℚ :=
  let rd := (resolveReference c now).1
  let rt := (resolveReference c now).2
  match firstPositive (specWaitLookups wp rd rt) with
  | none => 0
  | some b =>
    b * (if rd.elim false fun d => d.weekday == 5 || d.weekday == 6
          then (6 : ℚ) / 5 else 1)
      * (if rd.elim false fun d =>
            [(1, 1), (3, 1), (5, 5), (6, 6), (8, 15), (10, 3), (10, 9),
              (12, 25)].contains (d.month, d.day)
          then (13 : ℚ) / 10 else 1)
      * (if 2000 ≤ totalReviews then (13 : ℚ) / 10
          else if 1000 ≤ totalReviews then (6 : ℚ) / 5
          else if 500 ≤ totalReviews then (11 : ℚ) / 10 else 1)

/-! ## Business-hours parsing (`time_module.parse_business_hours_field`)

The regular expressions of the source are embedded as deterministic
scanners over `List Char`.  For these particular patterns maximal-munch
scanning coincides with Python's backtracking `re.search`: every
quantified piece (`\d{1,2}`, `(\d{1,2})?`, `\s*`, `분?`) is followed by a
literal that can never begin with a character the piece could also have
consumed, so no backtracking alternative can succeed where the greedy
parse fails. -/

/-- Numeric value of a digit character. -/
def digitVal (c : Char) : Nat := c.toNat - '0'.toNat

/-- Greedy `\d{1,2}`: one or two digits, preferring two. -/
def takeDigits2 : List Char → Option (Nat × List Char)
  | c1 :: c2 :: rest =>
    if c1.isDigit then
      if c2.isDigit then some (digitVal c1 * 10 + digitVal c2, rest)
      else some (digitVal c1, c2 :: rest)
    else none
  | [c1] => if c1.isDigit then some (digitVal c1, []) else none
  | [] => none

/-- `(\d{2})`: exactly two digits. -/
def take2Digits : List Char → Option (Nat × List Char)
  | c1 :: c2 :: rest =>
    if c1.isDigit && c2.isDigit then
      some (digitVal c1 * 10 + digitVal c2, rest)
    else none
  | _ => none

/-- Require a literal character. -/
def expectChar (c : Char) : List Char → Option (List Char)
  | x :: rest => if x = c then some rest else none
  | [] => none

/-- `\s*` (Python whitespace ≈ `Char.isWhitespace`). -/
def dropWs (cs : List Char) : List Char := cs.dropWhile (·.isWhitespace)

/-- `str.strip()`. -/
def pyStrip (cs : List Char) : List Char :=
  ((cs.dropWhile (·.isWhitespace)).reverse.dropWhile (·.isWhitespace)).reverse

/-- Python's `needle in haystack` substring test. -/
def listIsInfixOf (needle : List Char) : List Char → Bool
  | [] => needle.isPrefixOf []
  | c :: rest => needle.isPrefixOf (c :: rest) || listIsInfixOf needle rest

/-- Match `(\d{1,2}):(\d{2})` at the current position. -/
def matchTimeAt (cs : List Char) : Option (Nat × Nat × List Char) := do
  let (h, r1) ← takeDigits2 cs
  let r2 ← expectChar ':' r1
  let (m, r3) ← take2Digits r2
  pure (h, m, r3)

/-- Match `(\d{1,2}):(\d{2})\s*-\s*(\d{1,2}):(\d{2})` at the current
position. -/
def matchHoursAt (cs : List Char) : Option (Nat × Nat × Nat × Nat) := do
  let (oh, om, r1) ← matchTimeAt cs
  let r2 ← expectChar '-' (dropWs r1)
  let (ch, cm, _) ← matchTimeAt (dropWs r2)
  pure (oh, om, ch, cm)

/-- `re.search` of the opening-hours pattern: first matching position. -/
def searchHours : List Char → Option (Nat × Nat × Nat × Nat)
  | [] => none
  | c :: rest =>
    match matchHoursAt (c :: rest) with
    | some r => some r
    | none => searchHours rest

/-- Match `(\d{1,2}):(\d{2})\s*라스트오더` at the current position. -/
def matchLastOrder1At (cs : List Char) : Option (Nat × Nat) := do
  let (h, m, r1) ← matchTimeAt cs
  if ("라스트오더".toList).isPrefixOf (dropWs r1) then pure (h, m) else none

/-- `re.search` of the first last-order pattern. -/
def searchLastOrder1 : List Char → Option (Nat × Nat)
  | [] => none
  | c :: rest =>
    match matchLastOrder1At (c :: rest) with
    | some r => some r
    | none => searchLastOrder1 rest

/-- Match `(\d{1,2})\s*시\s*(\d{1,2})?\s*분?\s*라스트오더` at the
current position (`group(2) or 0` gives minute 0 when absent). -/
def matchLastOrder2At (cs : List Char) : Option (Nat × Nat) := do
  let (h, r1) ← takeDigits2 cs
  let r2 ← expectChar '시' (dropWs r1)
  let (m, r3) :=
    match takeDigits2 (dropWs r2) with
    | some (m, r') => (m, r')
    | none => (0, dropWs r2)
  let r4 :=
    match dropWs r3 with
    | '분' :: rest => rest
    | other => other
  if ("라스트오더".toList).isPrefixOf (dropWs r4) then pure (h, m) else none

/-- `re.search` of the second last-order pattern. -/
def searchLastOrder2 : List Char → Option (Nat × Nat)
  | [] => none
  | c :: rest =>
    match matchLastOrder2At (c :: rest) with
    | some r => some r
    | none => searchLastOrder2 rest

/-- The last-order extraction of `parse_business_hours_field`: the
colon pattern first; the `시/분` pattern only when the first found no
match at all (an out-of-range first match leaves `None` without trying
the second pattern, as in the source). -/
def lastOrderOf (text : List Char) : Option ClockTime :=
  match searchLastOrder1 text with
  | some (lh, lm) =>
    if lh ≤ 23 ∧ lm ≤ 59 then some ⟨lh, lm⟩ else none
  | none =>
    match searchLastOrder2 text with
    | some (lh, lm) =>
      if lh ≤ 23 ∧ lm ≤ 59 then some ⟨lh, lm⟩ else none
    | none => none

/-- `time_module.parse_business_hours_field` on a character list. -/
def parseBusinessHoursL (cs : List Char) :
    Option (ClockTime × ClockTime × Option ClockTime) :=
  let text := pyStrip cs
  if ["휴무", "쉼", "휴점", "정기휴무"].any
      (fun x => listIsInfixOf x.toList text) then none
  else
    match searchHours text with
    | none => none
    | some (oh, om, ch0, cm0) =>
      -- 24:00 is normalised to 23:59 before range validation
      let ch := if ch0 = 24 ∧ cm0 = 0 then 23 else ch0
      let cm := if ch0 = 24 ∧ cm0 = 0 then 59 else cm0
      if oh ≤ 23 ∧ om ≤ 59 ∧ ch ≤ 23 ∧ cm ≤ 59 then
        some (⟨oh, om⟩, ⟨ch, cm⟩, lastOrderOf text)
      else none

/-- `time_module.parse_business_hours_field`. -/
def parseBusinessHoursField (field : String) :
    Option (ClockTime × ClockTime × Option ClockTime) :=
  parseBusinessHoursL field.toList

/-! ## Business-hours index and availability (`time_module.py`) -/

/-- One weekday's entry of the index.  `build_business_hours_index`
always stores both `open` and `close` (and `datetime.time` values are
always truthy in Python ≥ 3.5), so the `not open_t or not close_t`
guards of the source can never fire on an index it built; the entry is
therefore modelled with mandatory open/close. -/
structure DayInfo where
  openT : ClockTime
  closeT : ClockTime
  lastOrder : Option ClockTime
deriving Repr, DecidableEq

/-- `name = b.get("name") or b.get("slug_en") or ""` (absent fields are
modelled as the falsy `""`). -/
def bakeryName (name slug_en : String) : String :=
  if name ≠ "" then name else slug_en

/-- A raw POI record as consumed by `build_business_hours_index`:
name, slug and the seven weekday hour strings (`none` = field absent). -/
structure BakeryRaw where
  name : String
  slug_en : String
  hours : Fin 7 → Option String

/-- One weekday's parse inside `build_business_hours_index`: empty or
missing fields and unparsable fields contribute no entry. -/
def weeklyInfo (b : BakeryRaw) (wd : Fin 7) : Option DayInfo :=
  let field := pyStrip ((b.hours wd).getD "").toList
  if field.isEmpty then none
  else
    match parseBusinessHoursL field with
    | none => none
    | some (o, c, lo) => some ⟨o, c, lo⟩

/-- Whether any weekday parsed (`has_any`): only then is the POI put in
the index. -/
def hasAnyDay (w : Fin 7 → Option DayInfo) : Bool :=
  (List.finRange 7).any fun wd => (w wd).isSome

/-- `time_module.build_business_hours_index`, as the name-keyed lookup
function the resulting dict denotes (later duplicates overwrite
earlier, exactly as dict assignment does). -/
def buildBusinessHoursIndex (bs : List BakeryRaw) :
    String → Option (Fin 7 → Option DayInfo) :=
  bs.foldl
    (fun idx b =>
      let nm := bakeryName b.name b.slug_en
      if nm = "" then idx
      else
        let w := fun wd : Fin 7 => weeklyInfo b wd
        if hasAnyDay w then (fun n => if n = nm then some w else idx n)
        else idx)
    (fun _ => none)

/-- The instant's weekday as an index into the weekly table
(`weekday` is a `% 7`, hence `< 7`). -/
def weekdayFin (d : Date) : Fin 7 := ⟨d.weekday, Nat.mod_lt _ (by norm_num)⟩

/-- `time_module.is_open_at`. -/
def isOpenAt (b : BakeryRaw) (dt : Instant)
    (index : String → Option (Fin 7 → Option DayInfo)) : Bool :=
  let name := bakeryName b.name b.slug_en
  if name = "" then false
  else
    match index name with
    | none => false
    | some weekly =>
      match weekly (weekdayFin dt.date) with
      | none => false
      | some di =>
        let effectiveClose := di.lastOrder.getD di.closeT
        di.openT.le dt.time && dt.time.le effectiveClose

/-- The weekday scan of `is_available_in_period` when the constraint has
no explicit date range: the first weekday whose effective interval
overlaps the requested time-of-day interval decides the result. -/
def scanWeekdays (weekly : Fin 7 → Option DayInfo)
    (st et : Option ClockTime) : List (Fin 7) → Bool × Option ClockTime
  | [] => (false, none)
  | wd :: rest =>
    match weekly wd with
    | none => scanWeekdays weekly st et rest
    | some di =>
      let eff := di.lastOrder.getD di.closeT
      match st, et with
      | some s, some e =>
        if di.openT.le e && s.le eff then (true, some eff)
        else scanWeekdays weekly st et rest
      | some s, none =>
        if s.le eff then (true, some eff)
        else scanWeekdays weekly st et rest
      | none, some e =>
        if di.openT.le e then (true, some eff)
        else scanWeekdays weekly st et rest
      | none, none => scanWeekdays weekly st et rest

/-- The calendar-date loop of `is_available_in_period` when an explicit
date range exists.  The source advances a date cursor one day at a time
while `current ≤ end`; the recursion is fuelled with the exact number of
remaining days. -/
def rangeLoop (weekly : Fin 7 → Option DayInfo) (st et : Option ClockTime)
    (endD : Date) : Nat → Date → Bool × Option ClockTime
  | 0, _ => (false, none)
  | fuel + 1, cur =>
    if cur.le endD then
      match weekly (weekdayFin cur) with
      | none => rangeLoop weekly st et endD fuel cur.next
      | some di =>
        let eff := di.lastOrder.getD di.closeT
        let hit : Bool :=
          match st, et with
          | some s, some e => di.openT.le e && s.le eff
          | some s, none => s.le eff
          | none, some e => di.openT.le e
          | none, none => true
        if hit then (true, if cur = endD then some eff else none)
        else rangeLoop weekly st et endD fuel cur.next
    else (false, none)

/-- `time_module.is_available_in_period`. -/
def isAvailableInPeriod (b : BakeryRaw) (c : DateTimeConstraint)
    (index : String → Option (Fin 7 → Option DayInfo)) :
    Bool × Option ClockTime :=
  let name := bakeryName b.name b.slug_en
  if name = "" then (false, none)
  else
    match index name with
    | none => (false, none)
    | some weekly =>
      if !c.has_date_range then
        if c.start_time.isNone && c.end_time.isNone then (true, none)
        else scanWeekdays weekly c.start_time c.end_time (List.finRange 7)
      else
        match c.start_date, c.end_date with
        | some s, some e =>
          rangeLoop weekly c.start_time c.end_time e
            (e.toDays + 1 - s.toDays) s
        | _, _ => (false, none)

/-! ### Concrete POIs used in scenario theorems -/

/-- POI A of the spec's example scenario: open Monday 09:00–18:00 with
last order 17:30, no other weekday entries. -/
def poiA : BakeryRaw :=
  ⟨"A", "", fun wd =>
    if wd = 0 then some "09:00 - 18:00 (17:30 라스트오더)" else none⟩

/-- A POI whose Monday entry closes at a written `24:00` and opens at
midnight. -/
def poiMidnight : BakeryRaw :=
  ⟨"M", "", fun wd => if wd = 0 then some "00:00 - 24:00" else none⟩

/-- A POI whose Monday entry is `10:00 - 24:00`. -/
def poiTenToMidnight : BakeryRaw :=
  ⟨"T", "", fun wd => if wd = 0 then some "10:00 - 24:00" else none⟩

/-! ## Menu-keyword cut (`ranking_module.rank_bakeries`, step 3)

The cut operates on the precomputed per-candidate menu-match counts.
A candidate is modelled by its name and its `keyword_stats` table
(`pos_count` per keyword; a missing or unparsable count reads as 0). -/

/-- A candidate as seen by the menu cut. -/
structure MenuCand where
  name : String
  kw_stats : List (String × Nat)
deriving Repr, DecidableEq

/-- The per-candidate menu-match count: the sum over the requested
keywords of that keyword's `pos_count` in the candidate's stats. -/
def menuCount (menuKeywords : List String) (c : MenuCand) : Nat :=
  (menuKeywords.map fun mk => (alookup c.kw_stats mk).getD 0).sum

/-- The running maximum menu-match count over the candidate list
(`max_menu_count`, updated while precomputing). -/
def maxMenuCount (menuKeywords : List String) (cands : List MenuCand) : Nat :=
  (cands.map (menuCount menuKeywords)).foldl max 0

/-- The menu cut of `ranking_module.rank_bakeries` (step 3): applied
only when keywords were supplied and some candidate matched; threshold
`max(3, int(max_menu_count * 0.1))` — `int` truncates, i.e. Nat division
by 10 (for every count below 2⁵³ the float product `n * 0.1` floors to
`n / 10`); when the cut would empty the set it is skipped. -/
def menuCutFilter (menuKeywords : List String) (cands : List MenuCand) :
    List MenuCand :=
  if menuKeywords.isEmpty then cands
  else if maxMenuCount menuKeywords cands = 0 then cands
  else
    let threshold := max 3 (maxMenuCount menuKeywords cands / 10)
    let filtered := cands.filter fun c =>
      threshold ≤ menuCount menuKeywords c
    if filtered.isEmpty then cands else filtered

/-! ## Flagship-tour ranking (`ranking_utils.rank_bakeries`)

A scored item carries the fields of the source's `scored_items` dict:
position identity (`id()` of the underlying dict, modelled by the
candidate's index), name, base score (computed by `_compute_base_score`,
a real-valued formula; the score enters this stage only through sorting
and is taken as input), total reviews and menu-match count. -/

/-- One entry of `scored_items`. -/
structure ScoredItem where
  idx : Nat
  name : String
  score : ℚ
  totalReviews : Nat
  menuMatchCnt : Nat
deriving Repr, DecidableEq

/-- Stable insertion for a descending sort: an element goes after every
earlier element with score ≥ its own, as Python's stable
`sort(reverse=True)`. -/
def insertDesc (x : ScoredItem) : List ScoredItem → List ScoredItem
  | [] => [x]
  | y :: ys => if y.score < x.score then x :: y :: ys else y :: insertDesc x ys

/-- Stable descending sort by score (`scored_items.sort(key=score,
reverse=True)`). -/
def sortDesc (l : List ScoredItem) : List ScoredItem :=
  l.foldl (fun acc x => insertDesc x acc) []

/-- Python `name.split()`: split on whitespace runs, dropping empties. -/
def pyWords (name : String) : List (List Char) :=
  (name.toList.splitOnP (·.isWhitespace)).filter (· ≠ [])

/-- `ranking_utils._extract_brand_key`: a known flagship name contained
in the POI name wins; else the first whitespace-delimited token.  (For a
nonempty all-whitespace name the source raises `IndexError`; here it
yields `""`, and the theorems below restrict to names with a first
token.) -/
def extractBrandKey (name : String) (knownFlagship : List String) : String :=
  if name = "" then ""
  else
    match knownFlagship.find? (fun brand =>
        brand ≠ "" && listIsInfixOf brand.toList name.toList) with
    | some brand => brand
    | none => ⟨(pyWords name).headD []⟩

/-- `ranking_utils._is_coffee_dominant_for_tour`.  The float comparison
`coffee / main_sweet >= 1.4` is the rational `5·coffee ≥ 7·main_sweet`
(exact for every realistic count; the nearest double to a small-integer
ratio orders identically against the 1.4 literal). -/
def isCoffeeDominant (cache : String → Nat × List (String × Nat))
    (name : String) : Bool :=
  let kwCounts := (cache name).2
  if kwCounts.isEmpty then false
  else
    let coffee := (alookup kwCounts "커피가 맛있어요").getD 0
    let bread := (alookup kwCounts "빵이 맛있어요").getD 0
    let dessert := (alookup kwCounts "디저트가 맛있어요").getD 0
    if coffee = 0 then false
    else
      let mainSweet := max bread dessert
      if mainSweet = 0 then true
      else decide (7 * mainSweet ≤ 5 * coffee)

/-- Step 2-1 of `ranking_utils.rank_bakeries`: when menu keywords are
present and the keyword-matching items alone can fill `top_k`, restrict
to them. -/
def menuStep (sorted : List ScoredItem) (hasMenu : Bool) (top_k : Nat) :
    List ScoredItem :=
  if hasMenu then
    let matched := sorted.filter fun it => 0 < it.menuMatchCnt
    if top_k ≤ matched.length then matched else sorted
  else sorted

/-- Step 3-1 of `ranking_utils.rank_bakeries`: review floor 200 and the
coffee-dominance cut, falling back to the unfiltered list when fewer
than `top_k` survive. -/
def flagshipEligible (items : List ScoredItem)
    (cache : String → Nat × List (String × Nat)) (top_k : Nat) :
    List ScoredItem :=
  let fc0 := items.filter fun it =>
    decide (200 ≤ it.totalReviews) && !isCoffeeDominant cache it.name
  if fc0.length < top_k then items else fc0

/-- Step 3-2: walk the eligible list keeping at most one item per brand
key (empty brand keys are kept without registering), stopping once
`remaining` (= `top_k − len(selected)`) hits 0, exactly as the source's
for-loop with its `break`. -/
def dedupWalk (kf : List String) :
    List ScoredItem → Nat → List String → List ScoredItem
  | [], _, _ => []
  | _, 0, _ => []
  | it :: rest, r + 1, used =>
    let bk := extractBrandKey it.name kf
    if bk ≠ "" ∧ used.contains bk then dedupWalk kf rest (r + 1) used
    else it :: dedupWalk kf rest r (if bk ≠ "" then bk :: used else used)

/-- Step 3-3: refill from the eligible list, skipping items already
selected (by `id()`, i.e. by their position identity), until `top_k` is
reached. -/
def backfill (ids : List Nat) :
    List ScoredItem → Nat → List ScoredItem
  | [], _ => []
  | _, 0 => []
  | it :: rest, r + 1 =>
    if ids.contains it.idx then backfill ids rest (r + 1)
    else it :: backfill ids rest r

/-- `ranking_utils.rank_bakeries` from the point where the per-candidate
scores have been computed (score/review/menu-count fields are inputs;
see `ScoredItem`). -/
def rankBakeriesUtils (items0 : List ScoredItem) (hasMenu : Bool)
    (isFlagshipTour : Bool) (cache : String → Nat × List (String × Nat))
    (kf : List String) (top_k : Nat) : List ScoredItem :=
  let sorted := sortDesc items0
  let items1 := menuStep sorted hasMenu top_k
  if !isFlagshipTour then items1.take top_k
  else
    let fc := flagshipEligible items1 cache top_k
    let selected := dedupWalk kf fc top_k []
    if selected.length < top_k then
      selected ++ backfill (selected.map (·.idx)) fc (top_k - selected.length)
    else selected

/-- The brand key of a scored item. -/
def brandKeyOf (kf : List String) (it : ScoredItem) : String :=
  extractBrandKey it.name kf

/-- The five-POI, three-brand example: two `alpha` branches, two `beta`
branches and one `gamma`, all review-eligible, scores descending. -/
def exFiveItems : List ScoredItem :=
  [⟨0, "alpha one", 10, 500, 0⟩, ⟨1, "beta one", 9, 500, 0⟩,
   ⟨2, "alpha two", 8, 500, 0⟩, ⟨3, "beta two", 7, 500, 0⟩,
   ⟨4, "gamma", 6, 500, 0⟩]

/-- Review cache for the example: everyone has 500 reviews, no keyword
counts (hence nobody is coffee-dominant). -/
def exCache : String → Nat × List (String × Nat) := fun _ => (500, [])

/-! ## Cost-greedy route sequencer
(`bakery_rag_chatbot._order_bakeries_by_route_distance`)

The per-candidate records built by `_order_bakeries_by_route` (coord
from latitude/longitude with 0/unparsable → `none`, `route_score`,
`score`, `wait_minutes`, enumeration index `orig_idx`).  The real-valued
`haversine_distance_km` is abstracted as a distance parameter
`dist : Coord → Coord → ℚ`, exactly as the sequencer consumes it. -/

/-- A coordinate pair. -/
abbrev Coord : Type := ℚ × ℚ

/-- One entry of the sequencer's `items`. -/
structure RouteItem where
  origIdx : Nat
  coord : Option Coord
  routeScore : ℚ
  score : ℚ
  waitMinutes : ℚ
deriving Repr, DecidableEq

/-- `it.get("route_score") or it.get("score") or 0.0`: Python `or`
falls through on the falsy 0.0. -/
def baseScore (it : RouteItem) : ℚ :=
  if it.routeScore ≠ 0 then it.routeScore else it.score

/-- `BakeryRAGChatbot._max_leg_distance_km`:
`speed_kmh * max_min / 60` with walk 3 km/h × 20 min, car 30 × 30,
transit/other 20 × 30. -/
def maxLegDistanceKm (mode : String) : ℚ :=
  if mode = "walk" then 3 * 20 / 60
  else if mode = "car" then 30 * 30 / 60
  else 20 * 30 / 60

/-- The distance-penalty weight α of
`_order_bakeries_by_route_distance`. -/
def distanceWeight (mode : String) : ℚ :=
  if mode = "walk" then 4 / 5
  else if mode = "car" then 1 / 5
  else 3 / 10

/-- `BakeryRAGChatbot._estimate_travel_time_minutes`. -/
def estimateTravelTimeMinutes (distKm : ℚ) (mode : String) : ℚ :=
  if distKm ≤ 0 then 0
  else distKm /
    (if mode = "walk" then 4 else if mode = "car" then 30 else 20) * 60

/-- The composite the greedy step maximises:
`route_score-or-score − α × distance` (coordinate-less items never reach
this computation; their composite is irrelevant). -/
def compOf (dist : Coord → Coord → ℚ) (α : ℚ) (lc : Coord)
    (it : RouteItem) : ℚ :=
  baseScore it - α * (match it.coord with | some c => dist lc c | none => 0)

/-- The start-selection scan when an origin coordinate exists: first
item (strict improvement updates) maximising `base − α·d(origin, ·)`
among items with a coordinate. -/
def selectStartGo (dist : Coord → Coord → ℚ) (α : ℚ) (origin : Coord) :
    List RouteItem → Option (RouteItem × ℚ) → Option (RouteItem × ℚ)
  | [], best => best
  | it :: rest, best =>
    match it.coord with
    | none => selectStartGo dist α origin rest best
    | some c =>
      let comp := baseScore it - α * dist origin c
      match best with
      | none => selectStartGo dist α origin rest (some (it, comp))
      | some (b, bc) =>
        if bc < comp then selectStartGo dist α origin rest (some (it, comp))
        else selectStartGo dist α origin rest (some (b, bc))

/-- Python `max(items, key=base)`: the first item with maximal base
score (`none` only on an empty list, which the caller excludes). -/
def maxByBase : List RouteItem → Option RouteItem → Option RouteItem
  | [], best => best
  | it :: rest, best =>
    match best with
    | none => maxByBase rest (some it)
    | some b =>
      if baseScore b < baseScore it then maxByBase rest (some it)
      else maxByBase rest (some b)

/-- The inner candidate scan of the extension loop: skip visited items,
items without a coordinate and items beyond `maxLeg`; keep the first
strict maximiser of `base − α·d`. -/
def selectNextGo (dist : Coord → Coord → ℚ) (α maxLeg : ℚ)
    (used : List Nat) (lc : Coord) :
    List RouteItem → Option (RouteItem × ℚ) → Option (RouteItem × ℚ)
  | [], best => best
  | it :: rest, best =>
    if used.contains it.origIdx then selectNextGo dist α maxLeg used lc rest best
    else
      match it.coord with
      | none => selectNextGo dist α maxLeg used lc rest best
      | some c =>
        let d := dist lc c
        if maxLeg < d then selectNextGo dist α maxLeg used lc rest best
        else
          let comp := baseScore it - α * d
          match best with
          | none => selectNextGo dist α maxLeg used lc rest (some (it, comp))
          | some (b, bc) =>
            if bc < comp then
              selectNextGo dist α maxLeg used lc rest (some (it, comp))
            else selectNextGo dist α maxLeg used lc rest (some (b, bc))

/-- The chosen next stop of one extension step. -/
def selectNext (dist : Coord → Coord → ℚ) (α maxLeg : ℚ)
    (items : List RouteItem) (used : List Nat) (lc : Coord) :
    Option RouteItem :=
  (selectNextGo dist α maxLeg used lc items none).map (·.1)

/-- Stable insertion for the descending sort of the leftover items
(`sorted(remaining, key=base, reverse=True)`). -/
def insertDescRoute (x : RouteItem) : List RouteItem → List RouteItem
  | [] => [x]
  | y :: ys =>
    if baseScore y < baseScore x then x :: y :: ys
    else y :: insertDescRoute x ys

/-- Stable descending sort of route items by base score. -/
def sortDescRoute (l : List RouteItem) : List RouteItem :=
  l.foldl (fun acc x => insertDescRoute x acc) []

/-- The extension loop of `_order_bakeries_by_route_distance` (returns
the stops appended after the current one).  The loop runs while
`len(used) < len(items)`, stops when the current stop has no coordinate,
and on an empty feasible set either terminates (walk) or appends the
remaining items sorted by base score (car/transit).  Each pass adds one
item to `used`, so fuel `items.length` is never exhausted. -/
def routeLoop (dist : Coord → Coord → ℚ) (α maxLeg : ℚ) (mode : String)
    (items : List RouteItem) :
    Nat → List Nat → RouteItem → List RouteItem
  | 0, _, _ => []
  | fuel + 1, used, last =>
    if used.length < items.length then
      match last.coord with
      | none => []
      | some lc =>
        match selectNext dist α maxLeg items used lc with
        | none =>
          if mode = "walk" then []
          else sortDescRoute
            (items.filter fun it => !used.contains it.origIdx)
        | some nxt =>
          nxt :: routeLoop dist α maxLeg mode items fuel
            (nxt.origIdx :: used) nxt
    else []

/-- The start-stop choice: nearest good composite from the origin when
one is given (falling back to the best base score when no candidate has
a coordinate), else the best base score. -/
def selectStartItem (dist : Coord → Coord → ℚ) (α : ℚ)
    (items : List RouteItem) (origin : Option Coord) : Option RouteItem :=
  match origin with
  | some o =>
    ((selectStartGo dist α o items none).map (·.1)).orElse
      fun _ => maxByBase items none
  | none => maxByBase items none

/-- `BakeryRAGChatbot._order_bakeries_by_route_distance`. -/
def orderBakeriesByRouteDistance (dist : Coord → Coord → ℚ)
    (items : List RouteItem) (origin : Option Coord) (mode : String) :
    List RouteItem :=
  if items.isEmpty then []
  else
    match selectStartItem dist (distanceWeight mode) items origin with
    | none => []
    | some start =>
      start :: routeLoop dist (distanceWeight mode) (maxLegDistanceKm mode)
        mode items items.length [start.origIdx] start

/-- Absolute value written as a conditional (evaluation-friendly). -/
def ratAbs (x : ℚ) : ℚ := if x < 0 then -x else x

/-- Rectilinear distance, a concrete stand-in for the distance
parameter in counterexamples. -/
def distMan (p q : Coord) : ℚ := ratAbs (p.1 - q.1) + ratAbs (p.2 - q.2)

/-- Admissibility of a candidate at one extension step: unvisited, has
a usable coordinate, and lies within the maximum leg distance of the
current stop. -/
def admissibleNext (dist : Coord → Coord → ℚ) (maxLeg : ℚ)
    (used : List Nat) (lc : Coord) (it : RouteItem) : Prop :=
  used.contains it.origIdx = false ∧
    ∃ c, it.coord = some c ∧ dist lc c ≤ maxLeg

/-- Start stop X of the walk scenario: at the origin, top base score. -/
def exItemX : RouteItem := ⟨0, some (0, 0), 100, 0, 0⟩

/-- Candidate A: very close to X (0.1 km), base score 0, wait 0. -/
def exItemA : RouteItem := ⟨1, some (0, 1/10), 0, 0, 0⟩

/-- Candidate B: slightly farther (0.2 km), base score 10, wait 0. -/
def exItemB : RouteItem := ⟨2, some (0, 2/10), 10, 0, 0⟩

/-- The three-item walk scenario. -/
def exRouteItems : List RouteItem := [exItemX, exItemA, exItemB]

/-! ## Fixed-line interval selection
(`subway_tour_planner.build_subway_contiguous_tour`)

A candidate carries its nearest-stop index (`subway_info.station_index`;
`none` when `subway_info` is absent, in which case grouping skips it)
and its score (`b.get(score_key, 0.0)`). -/

/-- One candidate of the fixed-line selector. -/
structure SubwayItem where
  idx : Nat
  stationIndex : Option Nat
  score : ℚ
deriving Repr, DecidableEq

/-- Stable insertion for the descending score sort of subway items. -/
def insertDescSubway (x : SubwayItem) : List SubwayItem → List SubwayItem
  | [] => [x]
  | y :: ys =>
    if y.score < x.score then x :: y :: ys else y :: insertDescSubway x ys

/-- Stable descending sort by score (`sort(key=score, reverse=True)`). -/
def sortDescSubway (l : List SubwayItem) : List SubwayItem :=
  l.foldl (fun acc x => insertDescSubway x acc) []

/-- Ascending insertion for the station-index list. -/
def insertAscNat (x : Nat) : List Nat → List Nat
  | [] => [x]
  | y :: ys => if x ≤ y then x :: y :: ys else y :: insertAscNat x ys

/-- Distinct values in first-seen order (dict-key semantics). -/
def dedupNatGo (seen : List Nat) : List Nat → List Nat
  | [] => []
  | x :: rest =>
    if seen.contains x then dedupNatGo seen rest
    else x :: dedupNatGo (x :: seen) rest

/-- `sorted(by_station.keys())`: the distinct station indexes present,
ascending. -/
def stationIndices (items : List SubwayItem) : List Nat :=
  (dedupNatGo [] (items.filterMap (·.stationIndex))).foldl
    (fun acc x => insertAscNat x acc) []

/-- One station's bucket of `_group_bakeries_by_station`: the items
assigned to the stop, sorted descending by score. -/
def stationBucket (items : List SubwayItem) (idx : Nat) : List SubwayItem :=
  sortDescSubway (items.filter fun b => b.stationIndex == some idx)

/-- `subway_tour_planner._evaluate_interval`: collect up to `K` per
stop over the stations inside `[left, right]` (ascending station
order), keep the global top `N` by score, and return the summed score
with the selection. -/
def evaluateInterval (items : List SubwayItem) (K N : Nat)
    (left right : Nat) : ℚ × List SubwayItem :=
  let selected :=
    ((stationIndices items).filter fun idx =>
        decide (left ≤ idx) && decide (idx ≤ right)).flatMap
      fun idx => (stationBucket items idx).take K
  if selected.isEmpty then (0, [])
  else
    let top := (sortDescSubway selected).take N
    ((top.map (·.score)).sum, top)

/-- The brute-force enumeration order of the contiguous intervals:
`for i, left in enumerate(sorted)`, `for right in sorted[i:]`. -/
def intervalPairs : List Nat → List (Nat × Nat)
  | [] => []
  | l :: rest => ((l :: rest).map fun r => (l, r)) ++ intervalPairs rest

/-- The interval search of `build_subway_contiguous_tour`: skip empty
or non-positive intervals, keep the first strict maximiser of the
summed score (best score starts at 0.0). -/
def bestInterval (items : List SubwayItem) (K N : Nat) :
    ℚ × Option ((Nat × Nat) × List SubwayItem) :=
  (intervalPairs (stationIndices items)).foldl
    (fun st p =>
      let t := (evaluateInterval items K N p.1 p.2).1
      let sel := (evaluateInterval items K N p.1 p.2).2
      if t ≤ 0 ∨ sel.isEmpty then st
      else if st.1 < t then (t, some (p, sel))
      else st)
    (0, none)

/-- The final visiting-order key: station index ascending, ties by
descending score (`key=(station_index, -score)`); `station_index` is
read from `subway_info`, which every selected item has (`getD 0` is
unreachable there). -/
def subwayKeyLt (x y : SubwayItem) : Prop :=
  x.stationIndex.getD 0 < y.stationIndex.getD 0 ∨
    (x.stationIndex.getD 0 = y.stationIndex.getD 0 ∧ y.score < x.score)

instance (x y : SubwayItem) : Decidable (subwayKeyLt x y) := by
  unfold subwayKeyLt
  infer_instance

/-- Stable insertion for the final `(station_index, -score)` sort. -/
def insertFinal (x : SubwayItem) : List SubwayItem → List SubwayItem
  | [] => [x]
  | y :: ys =>
    if subwayKeyLt x y then x :: y :: ys else y :: insertFinal x ys

/-- The final stable sort by `(station_index, -score)`. -/
def sortFinal (l : List SubwayItem) : List SubwayItem :=
  l.foldl (fun acc x => insertFinal x acc) []

/-- `subway_tour_planner.build_subway_contiguous_tour` (the enrichment
step only copies station fields onto the result dicts and is the
identity on the modelled fields). -/
def buildSubwayContiguousTour (items : List SubwayItem) (K N : Nat) :
    List SubwayItem :=
  if items.isEmpty then []
  else if (stationIndices items).isEmpty then []
  else
    match (bestInterval items K N).2 with
    | none => (sortDescSubway items).take N
    | some (_, best) => sortFinal best

/-- Two candidates at stations 0 and 2 with nothing at station 1. -/
def exSubItems : List SubwayItem :=
  [⟨0, some 0, 5⟩, ⟨1, some 2, 4⟩]

/-- The non-strict visiting-order relation: station index ascending,
within a station score non-increasing. -/
def subwayKeyLe (x y : SubwayItem) : Prop :=
  x.stationIndex.getD 0 < y.stationIndex.getD 0 ∨
    (x.stationIndex.getD 0 = y.stationIndex.getD 0 ∧ y.score ≤ x.score)

end Tripsnap

namespace Tripsnap

/-! ## Theorems -/

/-- Helper: the two-step fallback chain of the source (keep a running
base, overwrite while it is ≤ 0) computes the first strictly positive
entry of the three lookups, and is ≤ 0 when there is none. -/
theorem chain_firstPositive (l1 o2 o3 : Option ℚ) :
    (firstPositive [l1, o2, o3] = none →
      (if (if l1.getD 0 ≤ 0 then o2.getD (l1.getD 0) else l1.getD 0) ≤ 0
        then o3.getD
          (if l1.getD 0 ≤ 0 then o2.getD (l1.getD 0) else l1.getD 0)
        else (if l1.getD 0 ≤ 0 then o2.getD (l1.getD 0) else l1.getD 0)) ≤ 0) ∧
    (∀ b, firstPositive [l1, o2, o3] = some b →
      (if (if l1.getD 0 ≤ 0 then o2.getD (l1.getD 0) else l1.getD 0) ≤ 0
        then o3.getD
          (if l1.getD 0 ≤ 0 then o2.getD (l1.getD 0) else l1.getD 0)
        else (if l1.getD 0 ≤ 0 then o2.getD (l1.getD 0) else l1.getD 0)) = b
        ∧ 0 < b) := by
  rcases l1 with _ | v1 <;> rcases o2 with _ | v2 <;> rcases o3 with _ | v3 <;>
    constructor <;>
    simp only [firstPositive, Option.getD_some, Option.getD_none] <;>
    intros <;> split_ifs at * <;>
    simp_all <;> linarith

/-- Helper: the source's `resolveBaseWait` is exactly that chain applied
to the three spec-side lookups. -/
theorem resolveBaseWait_eq_chain (wp : WaitingPrediction) (rd : Option Date)
    (rt : Option ClockTime) :
    resolveBaseWait wp rd rt =
      (let l1 := specLookupBand wp rd rt
       let o2 := specLookupDay wp rd
       let o3 := wp.overall_average_minutes
       let x := if l1.getD 0 ≤ 0 then o2.getD (l1.getD 0) else l1.getD 0
       if x ≤ 0 then o3.getD x else x) := by
  simp only [resolveBaseWait, specLookupBand, specLookupDay, specDayPred]
  cases hdp : (rd.bind fun d => koreanWeekdayMap d.weekday).bind
      (alookup wp.predictions) with
  | none =>
    cases htb : timeBandOf rt <;> simp [htb]
  | some dp =>
    cases htb : timeBandOf rt with
    | none => simp [htb]
    | some band =>
      cases halk : alookup dp.by_time band with
      | none => simp [htb, halk]
      | some wb =>
        cases hpm : wb.predicted_wait_minutes with
        | none => simp [htb, halk, hpm]
        | some v => simp [htb, halk, hpm]

/-- Helper: the factor block of the source equals the spec's three
independent multiplicative factors. -/
theorem waitFactor_spec (rd : Option Date) (n : Nat) :
    waitFactor rd n =
      (if rd.elim false fun d => d.weekday == 5 || d.weekday == 6
        then (6 : ℚ) / 5 else 1) *
      (if rd.elim false fun d =>
          [(1, 1), (3, 1), (5, 5), (6, 6), (8, 15), (10, 3), (10, 9),
            (12, 25)].contains (d.month, d.day)
        then (13 : ℚ) / 10 else 1) *
      (if 2000 ≤ n then (13 : ℚ) / 10
        else if 1000 ≤ n then (6 : ℚ) / 5
        else if 500 ≤ n then (11 : ℚ) / 10 else 1) := by
  cases rd with
  | none => simp [waitFactor, Option.elim]
  | some d =>
    have hwd : d.weekday < 7 := Nat.mod_lt _ (by norm_num)
    have h1 : (if (d.weekday == 5 || d.weekday == 6) then (6 : ℚ) / 5 else 1)
        = (if 5 ≤ d.weekday then (6 : ℚ) / 5 else 1) := by
      split_ifs with h h' <;> simp_all <;> omega
    simp only [waitFactor, Option.elim, isPublicHoliday, h1]

/-- C1: for every POI and every constraint, `_get_expected_wait_minutes`
returns exactly 0 when none of the three base-wait lookups (weekday/time-
band, weekday-level, overall average) yields a value > 0, with no
weighting applied; and when a base wait b > 0 resolves it returns b
multiplied by 1.2 for a Saturday/Sunday reference date, 1.3 for a fixed
solar-calendar holiday, and exactly one review-count tier factor
(1.3 / 1.2 / 1.1 / 1 for ≥2000 / ≥1000 / ≥500 / fewer total reviews),
compounded multiplicatively. -/
theorem expected_wait_matches_spec (wp : WaitingPrediction)
    (c : DateTimeConstraint) (now : Instant) (n : Nat) :
    getExpectedWaitMinutes wp c now n = expectedWaitSpec wp c now n := by
  set rd := (resolveReference c now).1 with hrd
  set rt := (resolveReference c now).2 with hrt
  have hch := resolveBaseWait_eq_chain wp rd rt
  have hfp := chain_firstPositive (specLookupBand wp rd rt)
    (specLookupDay wp rd) wp.overall_average_minutes
  simp only at hch
  rw [← hch] at hfp
  simp only [getExpectedWaitMinutes, expectedWaitSpec, specWaitLookups,
    ← hrd, ← hrt]
  cases hf : firstPositive
      [specLookupBand wp rd rt, specLookupDay wp rd,
        wp.overall_average_minutes] with
  | none =>
    rw [if_pos (hfp.1 hf)]
  | some b =>
    obtain ⟨he, hb⟩ := hfp.2 b hf
    rw [he, if_neg (not_le.mpr hb), waitFactor_spec]
    ring

/-- C5, counterexample: a constraint with no explicit date range and the
use-now flag unset does NOT always give 0: a POI whose overall-average
wait is 10 minutes and whose total review count is 2000 gets
10 × 1.3 = 13 minutes, because the overall-average fallback and the
review-count factor are not gated on a resolved reference date. -/
theorem wait_no_reference_not_always_zero :
    getExpectedWaitMinutes ⟨[], some 10⟩
        ⟨false, none, none, none, none, false⟩
        ⟨⟨2025, 1, 1⟩, ⟨12, 0⟩⟩ 2000 = 13 ∧
      (13 : ℚ) ≠ 0 := by
  constructor
  · norm_num [getExpectedWaitMinutes, resolveReference, resolveBaseWait,
      waitFactor, timeBandOf]
  · norm_num

/-- C5 amended: when no reference date/time resolves (no explicit date
range with a start date, and the use-now flag unset), the weekday and
time-band lookups are skipped and no weekend/holiday weighting applies,
but the overall-average fallback still resolves a base wait; the result
is 0 only when that fallback is absent or ≤ 0, and otherwise is the
overall average times the review-count tier factor alone. -/
theorem wait_no_reference_overall_fallback (wp : WaitingPrediction)
    (c : DateTimeConstraint) (now : Instant) (n : Nat)
    (h1 : (c.has_date_range && c.start_date.isSome) = false)
    (h2 : c.use_now_if_missing = false) :
    getExpectedWaitMinutes wp c now n =
      match wp.overall_average_minutes with
      | none => 0
      | some v =>
        if v ≤ 0 then 0
        else v * (if 2000 ≤ n then (13 : ℚ) / 10
          else if 1000 ≤ n then (6 : ℚ) / 5
          else if 500 ≤ n then (11 : ℚ) / 10 else 1) := by
  have hrr : resolveReference c now = (none, none) := by
    simp [resolveReference, h1, h2]
  simp only [getExpectedWaitMinutes, hrr, resolveBaseWait, waitFactor]
  cases hov : wp.overall_average_minutes with
  | none => simp
  | some v =>
    by_cases hv : v ≤ 0
    · simp [hv]
    · simp [hv, one_mul]

/-- Witness for `wait_no_reference_overall_fallback` at a concrete
input: overall average 10, 700 total reviews, empty constraint. -/
theorem wait_no_reference_overall_fallback_witness :
    getExpectedWaitMinutes ⟨[], some 10⟩
        ⟨false, none, none, none, none, false⟩
        ⟨⟨2025, 1, 1⟩, ⟨12, 0⟩⟩ 700 = 11 := by
  have h := wait_no_reference_overall_fallback ⟨[], some 10⟩
    ⟨false, none, none, none, none, false⟩
    ⟨⟨2025, 1, 1⟩, ⟨12, 0⟩⟩ 700 rfl rfl
  rw [h]
  norm_num

/-- C3, counterexample: for POI A (Monday 09:00–18:00, last order 17:30)
and the constraint {no date range, start 10:00, end 11:00},
`is_available_in_period` does NOT return an empty second component: the
no-date-range branch returns the matching weekday's effective close. -/
theorem available_period_not_none_close :
    isAvailableInPeriod poiA
        ⟨false, none, none, some ⟨10, 0⟩, some ⟨11, 0⟩, false⟩
        (buildBusinessHoursIndex [poiA]) ≠ (true, none) := by
  decide

/-- C3 amended: for POI A and the constraint {no date range, start
10:00, end 11:00}, `is_available_in_period` returns available = true
together with the matching weekday's effective close 17:30 (the last
order) as the second component. -/
theorem available_period_true_with_close :
    isAvailableInPeriod poiA
        ⟨false, none, none, some ⟨10, 0⟩, some ⟨11, 0⟩, false⟩
        (buildBusinessHoursIndex [poiA]) = (true, some ⟨17, 30⟩) := by
  decide

/-- Helper: the builder never indexes the empty name, so the
`if not name` short-circuit of the availability functions is subsumed by
a failed lookup. -/
theorem buildIndex_empty_name (bs : List BakeryRaw) :
    buildBusinessHoursIndex bs "" = none := by
  suffices h : ∀ (f : String → Option (Fin 7 → Option DayInfo)),
      f "" = none →
      bs.foldl
        (fun idx b =>
          let nm := bakeryName b.name b.slug_en
          if nm = "" then idx
          else
            let w := fun wd : Fin 7 => weeklyInfo b wd
            if hasAnyDay w then (fun n => if n = nm then some w else idx n)
            else idx)
        f "" = none by
    exact h _ rfl
  induction bs with
  | nil => intro f hf; simpa using hf
  | cons b rest ih =>
    intro f hf
    simp only [List.foldl_cons]
    apply ih
    by_cases hnm : bakeryName b.name b.slug_en = ""
    · simp [hnm, hf]
    · by_cases hw : hasAnyDay (fun wd => weeklyInfo b wd)
      · simp only [if_neg hnm, if_pos hw]
        simp [Ne.symm hnm, hf]
      · simp [hnm, hw, hf]

/-- Helper: Python's lexicographic `time` comparison agrees with
minutes-since-midnight comparison on in-range times. -/
theorem clockTime_le_iff (a b : ClockTime) (ha : a.minute < 60)
    (hb : b.minute < 60) :
    ClockTime.le a b = true ↔ a.totalMinutes ≤ b.totalMinutes := by
  simp only [ClockTime.le, ClockTime.totalMinutes, Bool.or_eq_true,
    Bool.and_eq_true, decide_eq_true_eq, beq_iff_eq]
  omega

/-- C9: `is_open_at` returns false whenever the POI is absent from the
business-hours index or the index has no entry for the instant's
weekday; otherwise (entry `di` present, with in-range clock values) it
returns true iff `open ≤ time-of-day ≤ effectiveClose`, where
`effectiveClose` is the last-order time when present, else the close
time. -/
theorem is_open_at_spec (bs : List BakeryRaw) (b : BakeryRaw)
    (dt : Instant) :
    (buildBusinessHoursIndex bs (bakeryName b.name b.slug_en) = none →
      isOpenAt b dt (buildBusinessHoursIndex bs) = false) ∧
    (∀ weekly,
      buildBusinessHoursIndex bs (bakeryName b.name b.slug_en) =
        some weekly →
      weekly (weekdayFin dt.date) = none →
      isOpenAt b dt (buildBusinessHoursIndex bs) = false) ∧
    (∀ weekly di,
      buildBusinessHoursIndex bs (bakeryName b.name b.slug_en) =
        some weekly →
      weekly (weekdayFin dt.date) = some di →
      dt.time.minute < 60 → di.openT.minute < 60 →
      (di.lastOrder.getD di.closeT).minute < 60 →
      (isOpenAt b dt (buildBusinessHoursIndex bs) = true ↔
        (di.openT.totalMinutes ≤ dt.time.totalMinutes ∧
          dt.time.totalMinutes ≤
            (di.lastOrder.getD di.closeT).totalMinutes))) := by
  by_cases hnm : bakeryName b.name b.slug_en = ""
  · refine ⟨fun _ => ?_, fun weekly hw => ?_, fun weekly di hw => ?_⟩
    · simp [isOpenAt, hnm]
    · rw [hnm, buildIndex_empty_name] at hw; exact absurd hw (by simp)
    · rw [hnm, buildIndex_empty_name] at hw; exact absurd hw (by simp)
  · refine ⟨fun hidx => ?_, fun weekly hw hnone => ?_,
      fun weekly di hw hsome h1 h2 h3 => ?_⟩
    · simp [isOpenAt, hnm, hidx]
    · simp [isOpenAt, hnm, hw, hnone]
    · simp only [isOpenAt, if_neg hnm, hw, hsome, Bool.and_eq_true]
      rw [clockTime_le_iff _ _ h2 h1, clockTime_le_iff _ _ h1 h3]

/-- Witness for `is_open_at_spec`: POI A is open on Monday 2024-01-01 at
10:00 (its Monday entry is 09:00–18:00, last order 17:30). -/
theorem is_open_at_spec_witness :
    isOpenAt poiA ⟨⟨2024, 1, 1⟩, ⟨10, 0⟩⟩
      (buildBusinessHoursIndex [poiA]) = true := by
  have h := (is_open_at_spec [poiA] poiA ⟨⟨2024, 1, 1⟩, ⟨10, 0⟩⟩).2.2
    (fun wd => weeklyInfo poiA wd) ⟨⟨9, 0⟩, ⟨18, 0⟩, some ⟨17, 30⟩⟩
    rfl (by decide) (by norm_num) (by norm_num) (by norm_num)
  exact h.mpr (by norm_num [ClockTime.totalMinutes])

/-- C10, counterexample: the entry `00:00 - 24:00` also has its written
closing time 24:00 (normalised to 23:59 by the parser), yet `is_open_at`
at exactly 00:00 on that weekday returns TRUE, because the opening time
00:00 admits midnight. -/
theorem close_24_midnight_counterexample :
    parseBusinessHoursField "00:00 - 24:00" =
        some (⟨0, 0⟩, ⟨23, 59⟩, none) ∧
      isOpenAt poiMidnight ⟨⟨2024, 1, 1⟩, ⟨0, 0⟩⟩
        (buildBusinessHoursIndex [poiMidnight]) = true := by
  constructor
  · decide
  · decide

/-- C10 amended: every hours string whose matched closing time is
written `24:00` parses with the close normalised to 23:59 (never
midnight, never a failure); and a POI whose weekday entry opens later
than 00:00 is never open at exactly 00:00 on that weekday. -/
theorem close_24_normalised (field : String) (oh om : Nat)
    (hded : (["휴무", "쉼", "휴점", "정기휴무"].any
      (fun x => listIsInfixOf x.toList (pyStrip field.toList))) = false)
    (hsearch : searchHours (pyStrip field.toList) = some (oh, om, 24, 0))
    (hoh : oh ≤ 23) (hom : om ≤ 59) :
    parseBusinessHoursField field =
        some (⟨oh, om⟩, ⟨23, 59⟩, lastOrderOf (pyStrip field.toList)) ∧
      (∀ (bs : List BakeryRaw) (b : BakeryRaw) (d : Date) weekly di,
        buildBusinessHoursIndex bs (bakeryName b.name b.slug_en) =
          some weekly →
        weekly (weekdayFin d) = some di →
        di.openT ≠ ⟨0, 0⟩ →
        isOpenAt b ⟨d, ⟨0, 0⟩⟩ (buildBusinessHoursIndex bs) = false) := by
  constructor
  · simp only [parseBusinessHoursField, parseBusinessHoursL, hded,
      Bool.false_eq_true, if_false, hsearch]
    norm_num [hoh, hom]
  · intro bs b d weekly di hw hsome hopen
    have hnm : bakeryName b.name b.slug_en ≠ "" := by
      intro hc
      rw [hc, buildIndex_empty_name] at hw
      exact absurd hw (by simp)
    simp only [isOpenAt, if_neg hnm, hw, hsome, Bool.and_eq_true]
    have hfalse : ClockTime.le di.openT ⟨0, 0⟩ = false := by
      rcases di with ⟨⟨h, m⟩, c, l⟩
      have hne : ¬(h = 0 ∧ m = 0) := by
        intro hc
        exact hopen (by simp [hc.1, hc.2])
      rw [Bool.eq_false_iff]
      intro hc
      simp only [ClockTime.le, Bool.or_eq_true, Bool.and_eq_true,
        decide_eq_true_eq, beq_iff_eq] at hc
      exact hne (by omega)
    simp [hfalse]

/-- C4, counterexample: with menu-match counts {3, 35}, the source cut
keeps the count-3 candidate (its threshold is `max(3, int(3.5)) = 3`),
but the claimed bound `max(3, ceil(0.1 × 35)) = 4` rejects it: the
threshold truncates (floor), it does not take the ceiling. -/
theorem menu_cut_uses_floor_not_ceil :
    (⟨"a", [("k", 3)]⟩ : MenuCand) ∈
        menuCutFilter ["k"] [⟨"a", [("k", 3)]⟩, ⟨"b", [("k", 35)]⟩] ∧
      menuCount ["k"] ⟨"a", [("k", 3)]⟩ = 3 ∧
      maxMenuCount ["k"] [⟨"a", [("k", 3)]⟩, ⟨"b", [("k", 35)]⟩] = 35 ∧
      ¬(max 3 ((35 + 9) / 10) ≤ 3) := by
  decide

/-- C4 amended: when menu keywords are supplied, the maximum menu-match
count is positive, and the cut does not empty the set (so it is
applied), every surviving candidate has
`menuMatchCount ≥ max(3, floor(0.1 × maxMenuMatchCount))`. -/
theorem menu_cut_threshold (menuKeywords : List String)
    (cands : List MenuCand)
    (hk : menuKeywords.isEmpty = false)
    (hmax : maxMenuCount menuKeywords cands ≠ 0)
    (hne : (cands.filter fun c =>
        max 3 (maxMenuCount menuKeywords cands / 10) ≤
          menuCount menuKeywords c).isEmpty = false) :
    ∀ c ∈ menuCutFilter menuKeywords cands,
      max 3 (maxMenuCount menuKeywords cands / 10) ≤
        menuCount menuKeywords c := by
  intro c hc
  simp only [menuCutFilter, hk, Bool.false_eq_true, if_false,
    if_neg hmax, hne] at hc
  exact of_decide_eq_true (List.mem_filter.mp hc).2

/-- Witness for `menu_cut_threshold` at the concrete counts {3, 35}. -/
theorem menu_cut_threshold_witness :
    max 3 (maxMenuCount ["k"] [⟨"a", [("k", 3)]⟩, ⟨"b", [("k", 35)]⟩] / 10) ≤
      menuCount ["k"] ⟨"a", [("k", 3)]⟩ :=
  menu_cut_threshold ["k"] [⟨"a", [("k", 3)]⟩, ⟨"b", [("k", 35)]⟩]
    (by decide) (by decide) (by decide) ⟨"a", [("k", 3)]⟩ (by decide)

/-- Helper: the dedup walk keeps pairwise-distinct brand keys (when
every key on the list is nonempty) and never selects a brand already
registered in `used`. -/
theorem dedupWalk_brands_nodup (kf : List String) :
    ∀ (l : List ScoredItem) (r : Nat) (used : List String),
      (∀ it ∈ l, brandKeyOf kf it ≠ "") →
      ((dedupWalk kf l r used).map (brandKeyOf kf)).Nodup ∧
        ∀ b ∈ (dedupWalk kf l r used).map (brandKeyOf kf), b ∉ used := by
  intro l
  induction l with
  | nil =>
    intro r used _
    simp [dedupWalk]
  | cons it rest ih =>
    intro r used hkeys
    have hit : brandKeyOf kf it ≠ "" := hkeys it (by simp)
    have hrest : ∀ x ∈ rest, brandKeyOf kf x ≠ "" :=
      fun x hx => hkeys x (List.mem_cons_of_mem _ hx)
    match r with
    | 0 => simp [dedupWalk]
    | r + 1 =>
      by_cases hc : extractBrandKey it.name kf ≠ "" ∧
          used.contains (extractBrandKey it.name kf)
      · have hstep : dedupWalk kf (it :: rest) (r + 1) used =
            dedupWalk kf rest (r + 1) used := by
          simp only [dedupWalk]
          rw [if_pos hc]
        rw [hstep]
        exact ih (r + 1) used hrest
      · have hbk : extractBrandKey it.name kf ≠ "" := hit
        have hncont : ¬ used.contains (extractBrandKey it.name kf) :=
          fun h => hc ⟨hbk, h⟩
        have hstep : dedupWalk kf (it :: rest) (r + 1) used =
            it :: dedupWalk kf rest r
              (extractBrandKey it.name kf :: used) := by
          simp only [dedupWalk]
          rw [if_neg hc, if_pos hbk]
        rw [hstep]
        obtain ⟨hnd, hnin⟩ := ih r (extractBrandKey it.name kf :: used) hrest
        refine ⟨?_, ?_⟩
        · refine List.nodup_cons.mpr ⟨?_, hnd⟩
          intro hmem
          exact hnin _ hmem (by simp [brandKeyOf])
        · intro b hb
          simp only [List.map_cons, List.mem_cons] at hb
          rcases hb with hb | hb
          · subst hb
            simpa [brandKeyOf] using
              fun h => hncont (List.elem_iff.mpr h)
          · intro hbu
            exact hnin b hb (List.mem_cons_of_mem _ hbu)

/-- Helper: the dedup walk selects at most `r` items. -/
theorem dedupWalk_length_le (kf : List String) :
    ∀ (l : List ScoredItem) (r : Nat) (used : List String),
      (dedupWalk kf l r used).length ≤ r := by
  intro l
  induction l with
  | nil => intro r used; simp [dedupWalk]
  | cons it rest ih =>
    intro r used
    match r with
    | 0 => simp [dedupWalk]
    | r + 1 =>
      by_cases hc : extractBrandKey it.name kf ≠ "" ∧
          used.contains (extractBrandKey it.name kf)
      · have hstep : dedupWalk kf (it :: rest) (r + 1) used =
            dedupWalk kf rest (r + 1) used := by
          simp only [dedupWalk]; rw [if_pos hc]
        rw [hstep]; exact ih (r + 1) used
      · have hstep : dedupWalk kf (it :: rest) (r + 1) used =
            it :: dedupWalk kf rest r
              (if extractBrandKey it.name kf ≠ ""
                then extractBrandKey it.name kf :: used else used) := by
          simp only [dedupWalk]; rw [if_neg hc]
        rw [hstep]
        simpa using Nat.succ_le_succ (ih r _)

/-- Helper: if the dedup walk stops short of its budget, every brand
key of the input is either already registered or among the selected. -/
theorem dedupWalk_covers (kf : List String) :
    ∀ (l : List ScoredItem) (r : Nat) (used : List String),
      (dedupWalk kf l r used).length < r →
      ∀ x ∈ l, brandKeyOf kf x ∈ used ∨
        brandKeyOf kf x ∈ (dedupWalk kf l r used).map (brandKeyOf kf) := by
  intro l
  induction l with
  | nil => intro r used _ x hx; simp at hx
  | cons it rest ih =>
    intro r used hlen x hx
    match r with
    | 0 => simp [dedupWalk] at hlen
    | r + 1 =>
      by_cases hc : extractBrandKey it.name kf ≠ "" ∧
          used.contains (extractBrandKey it.name kf)
      · have hstep : dedupWalk kf (it :: rest) (r + 1) used =
            dedupWalk kf rest (r + 1) used := by
          simp only [dedupWalk]; rw [if_pos hc]
        rw [hstep] at hlen ⊢
        rcases List.mem_cons.mp hx with hx | hx
        · subst hx
          exact Or.inl (List.elem_iff.mp hc.2)
        · exact ih (r + 1) used hlen x hx
      · have hstep : dedupWalk kf (it :: rest) (r + 1) used =
            it :: dedupWalk kf rest r
              (if extractBrandKey it.name kf ≠ ""
                then extractBrandKey it.name kf :: used else used) := by
          simp only [dedupWalk]; rw [if_neg hc]
        rw [hstep] at hlen ⊢
        rcases List.mem_cons.mp hx with hx | hx
        · subst hx
          exact Or.inr (by simp [brandKeyOf])
        · have hlen' : (dedupWalk kf rest r
              (if extractBrandKey it.name kf ≠ ""
                then extractBrandKey it.name kf :: used else used)).length
              < r := by
            simpa using Nat.lt_of_succ_lt_succ (by simpa using hlen)
          rcases ih r _ hlen' x hx with hmem | hmem
          · by_cases hbk : extractBrandKey it.name kf ≠ ""
            · rw [if_pos hbk] at hmem
              rcases List.mem_cons.mp hmem with he | he
              · exact Or.inr (by rw [he]; simp [brandKeyOf])
              · exact Or.inl he
            · rw [if_neg hbk] at hmem
              exact Or.inl hmem
          · refine Or.inr ?_
            simp only [List.map_cons, List.mem_cons]
            exact Or.inr hmem

/-- Helper: when the requested count is at most the number of distinct
brand keys on the list, the dedup walk fills its whole budget. -/
theorem dedupWalk_fills (kf : List String) (l : List ScoredItem)
    (top_k : Nat)
    (hD : top_k ≤ ((l.map (brandKeyOf kf)).dedup).length) :
    (dedupWalk kf l top_k []).length = top_k := by
  have hle := dedupWalk_length_le kf l top_k []
  rcases Nat.lt_or_ge (dedupWalk kf l top_k []).length top_k with hlt | hge
  · exfalso
    have hcov := dedupWalk_covers kf l top_k [] hlt
    have hsub : (l.map (brandKeyOf kf)).dedup ⊆
        (dedupWalk kf l top_k []).map (brandKeyOf kf) := by
      intro b hb
      have hb' : b ∈ l.map (brandKeyOf kf) := List.dedup_subset _ hb
      obtain ⟨x, hxl, hbx⟩ := List.mem_map.mp hb'
      rcases hcov x hxl with h | h
      · simp at h
      · rwa [← hbx]
    have hnd : ((l.map (brandKeyOf kf)).dedup).Nodup := List.nodup_dedup _
    have hchain : ((l.map (brandKeyOf kf)).dedup).length ≤
        ((dedupWalk kf l top_k []).map (brandKeyOf kf)).length := by
      calc ((l.map (brandKeyOf kf)).dedup).length
          = ((l.map (brandKeyOf kf)).dedup).toFinset.card :=
            (List.toFinset_card_of_nodup hnd).symm
        _ ≤ (((dedupWalk kf l top_k []).map (brandKeyOf kf)).toFinset).card := by
            apply Finset.card_le_card
            intro b hb
            exact List.mem_toFinset.mpr (hsub (List.mem_toFinset.mp hb))
        _ ≤ ((dedupWalk kf l top_k []).map (brandKeyOf kf)).length :=
            List.toFinset_card_le _
    rw [List.length_map] at hchain
    omega
  · exact le_antisymm hle hge

/-- C7: in flagship/tour mode, when every eligible candidate has a
nonempty brand key and the requested count is at most the number of
distinct brand keys among the eligible candidates, the returned list
holds at most one POI per brand key; and in the concrete five-candidate
three-brand example with requested size 5, the result is exactly the
five candidates — the three brand representatives first, then two brand
repeats back-filled. -/
theorem tour_brand_dedup :
    (∀ (items0 : List ScoredItem) (hasMenu : Bool)
        (cache : String → Nat × List (String × Nat)) (kf : List String)
        (top_k : Nat),
      (∀ it ∈ flagshipEligible (menuStep (sortDesc items0) hasMenu top_k)
          cache top_k, brandKeyOf kf it ≠ "") →
      top_k ≤
        (((flagshipEligible (menuStep (sortDesc items0) hasMenu top_k)
          cache top_k).map (brandKeyOf kf)).dedup).length →
      ((rankBakeriesUtils items0 hasMenu true cache kf top_k).map
        (brandKeyOf kf)).Nodup) ∧
    rankBakeriesUtils exFiveItems false true exCache [] 5 =
      [⟨0, "alpha one", 10, 500, 0⟩, ⟨1, "beta one", 9, 500, 0⟩,
       ⟨4, "gamma", 6, 500, 0⟩, ⟨2, "alpha two", 8, 500, 0⟩,
       ⟨3, "beta two", 7, 500, 0⟩] := by
  constructor
  · intro items0 hasMenu cache kf top_k hkeys hD
    have hfill := dedupWalk_fills kf
      (flagshipEligible (menuStep (sortDesc items0) hasMenu top_k)
        cache top_k) top_k hD
    have hnodup := (dedupWalk_brands_nodup kf
      (flagshipEligible (menuStep (sortDesc items0) hasMenu top_k)
        cache top_k) top_k [] hkeys).1
    simp only [rankBakeriesUtils, Bool.not_true, Bool.false_eq_true,
      if_false, hfill, lt_irrefl, if_neg (lt_irrefl top_k)]
    exact hnodup
  · decide

/-- Witness for `tour_brand_dedup`: with the same five candidates and
requested size 3 (= the number of distinct brands), the output carries
pairwise-distinct brand keys. -/
theorem tour_brand_dedup_witness :
    ((rankBakeriesUtils exFiveItems false true exCache [] 3).map
      (brandKeyOf [])).Nodup :=
  tour_brand_dedup.1 exFiveItems false exCache [] 3 (by decide) (by decide)

/-- Witness for `close_24_normalised`: the concrete entry
`10:00 - 24:00` parses to close 23:59 with no last order, and the POI
carrying it is closed at exactly 00:00 on Monday. -/
theorem close_24_normalised_witness :
    parseBusinessHoursField "10:00 - 24:00" =
        some (⟨10, 0⟩, ⟨23, 59⟩, none) ∧
      isOpenAt poiTenToMidnight ⟨⟨2024, 1, 1⟩, ⟨0, 0⟩⟩
        (buildBusinessHoursIndex [poiTenToMidnight]) = false := by
  have h := close_24_normalised "10:00 - 24:00" 10 0 (by decide) (by decide)
    (by norm_num) (by norm_num)
  refine ⟨?_, ?_⟩
  · rw [h.1]; decide
  · exact h.2 [poiTenToMidnight] poiTenToMidnight ⟨2024, 1, 1⟩
      (fun wd => weeklyInfo poiTenToMidnight wd)
      ⟨⟨10, 0⟩, ⟨23, 59⟩, none⟩ rfl (by decide) (by decide)

/-- Helper: invariant characterisation of the inner candidate scan.
With a sound accumulator, the scan returns an admissible item whose
stored value is its composite, coming from the list or the accumulator;
the result dominates the composite of every admissible list element;
and the stored value never decreases. -/
theorem selectNextGo_spec (dist : Coord → Coord → ℚ) (α maxLeg : ℚ)
    (used : List Nat) (lc : Coord) :
    ∀ (l : List RouteItem) (acc : Option (RouteItem × ℚ)),
      (∀ b bc, acc = some (b, bc) →
        admissibleNext dist maxLeg used lc b ∧ bc = compOf dist α lc b) →
      ((∀ b bc, selectNextGo dist α maxLeg used lc l acc = some (b, bc) →
          admissibleNext dist maxLeg used lc b ∧ bc = compOf dist α lc b) ∧
        (∀ x ∈ l, admissibleNext dist maxLeg used lc x →
          ∃ b bc, selectNextGo dist α maxLeg used lc l acc = some (b, bc) ∧
            compOf dist α lc x ≤ bc) ∧
        (∀ b bc, acc = some (b, bc) →
          ∃ b' bc',
            selectNextGo dist α maxLeg used lc l acc = some (b', bc') ∧
              bc ≤ bc')) := by
  intro l
  induction l with
  | nil =>
    intro acc hacc
    refine ⟨fun b bc h => hacc b bc h, ?_, ?_⟩
    · intro x hx; simp at hx
    · intro b bc h
      exact ⟨b, bc, h, le_refl _⟩
  | cons it rest ih =>
    intro acc hacc
    by_cases hu : used.contains it.origIdx
    · have hstep : selectNextGo dist α maxLeg used lc (it :: rest) acc =
          selectNextGo dist α maxLeg used lc rest acc := by
        simp only [selectNextGo]
        rw [if_pos hu]
      obtain ⟨p1, p2, p3⟩ := ih acc hacc
      refine ⟨fun b bc h => p1 b bc (hstep ▸ h), ?_, ?_⟩
      · intro x hx hadm
        rcases List.mem_cons.mp hx with hx | hx
        · subst hx
          rw [hadm.1] at hu
          exact (Bool.false_ne_true hu).elim
        · obtain ⟨b, bc, hr, hle⟩ := p2 x hx hadm
          exact ⟨b, bc, hstep ▸ hr, hle⟩
      · intro b bc h
        obtain ⟨b', bc', hr, hle⟩ := p3 b bc h
        exact ⟨b', bc', hstep ▸ hr, hle⟩
    · cases hco : it.coord with
      | none =>
        have hstep : selectNextGo dist α maxLeg used lc (it :: rest) acc =
            selectNextGo dist α maxLeg used lc rest acc := by
          simp only [selectNextGo]
          rw [if_neg hu, hco]
        obtain ⟨p1, p2, p3⟩ := ih acc hacc
        refine ⟨fun b bc h => p1 b bc (hstep ▸ h), ?_, ?_⟩
        · intro x hx hadm
          rcases List.mem_cons.mp hx with hx | hx
          · subst hx
            obtain ⟨c, hc, _⟩ := hadm.2
            rw [hco] at hc
            exact absurd hc (by simp)
          · obtain ⟨b, bc, hr, hle⟩ := p2 x hx hadm
            exact ⟨b, bc, hstep ▸ hr, hle⟩
        · intro b bc h
          obtain ⟨b', bc', hr, hle⟩ := p3 b bc h
          exact ⟨b', bc', hstep ▸ hr, hle⟩
      | some c =>
        by_cases hd : maxLeg < dist lc c
        · have hstep : selectNextGo dist α maxLeg used lc (it :: rest) acc =
              selectNextGo dist α maxLeg used lc rest acc := by
            simp only [selectNextGo]
            rw [if_neg hu, hco]
            simp only [if_pos hd]
          obtain ⟨p1, p2, p3⟩ := ih acc hacc
          refine ⟨fun b bc h => p1 b bc (hstep ▸ h), ?_, ?_⟩
          · intro x hx hadm
            rcases List.mem_cons.mp hx with hx | hx
            · subst hx
              obtain ⟨c', hc', hle'⟩ := hadm.2
              rw [hco] at hc'
              injection hc' with hc'
              subst hc'
              exact absurd hle' (not_le.mpr hd)
            · obtain ⟨b, bc, hr, hle⟩ := p2 x hx hadm
              exact ⟨b, bc, hstep ▸ hr, hle⟩
          · intro b bc h
            obtain ⟨b', bc', hr, hle⟩ := p3 b bc h
            exact ⟨b', bc', hstep ▸ hr, hle⟩
        · -- the item is admissible; the accumulator is (re)set or kept
          have hadm_it : admissibleNext dist maxLeg used lc it :=
            ⟨Bool.eq_false_iff.mpr hu, c, hco, not_lt.mp hd⟩
          have hcomp_it : baseScore it - α * dist lc c =
              compOf dist α lc it := by
            simp [compOf, hco]
          cases hax : acc with
          | none =>
            have hstep : selectNextGo dist α maxLeg used lc (it :: rest)
                none =
                selectNextGo dist α maxLeg used lc rest
                  (some (it, baseScore it - α * dist lc c)) := by
              simp only [selectNextGo]
              rw [if_neg hu, hco]
              simp only [if_neg hd]
            have hacc' : ∀ b bc,
                (some (it, baseScore it - α * dist lc c) :
                  Option (RouteItem × ℚ)) = some (b, bc) →
                admissibleNext dist maxLeg used lc b ∧
                  bc = compOf dist α lc b := by
              intro b bc h
              injection h with h
              injection h with h1 h2
              subst h1; subst h2
              exact ⟨hadm_it, hcomp_it⟩
            obtain ⟨p1, p2, p3⟩ := ih _ hacc'
            refine ⟨fun b bc h => p1 b bc (hstep ▸ h), ?_, ?_⟩
            · intro x hx hadm
              rcases List.mem_cons.mp hx with hx | hx
              · subst hx
                obtain ⟨b', bc', hr, hle⟩ := p3 _ _ rfl
                refine ⟨b', bc', hstep ▸ hr, ?_⟩
                calc compOf dist α lc x = baseScore x - α * dist lc c :=
                      hcomp_it.symm
                  _ ≤ bc' := hle
              · obtain ⟨b, bc, hr, hle⟩ := p2 x hx hadm
                exact ⟨b, bc, hstep ▸ hr, hle⟩
            · intro b bc h
              exact absurd h (by simp)
          | some p =>
            obtain ⟨b0, bc0⟩ := p
            obtain ⟨hadm0, hbc0⟩ := hacc b0 bc0 hax
            by_cases hlt : bc0 < baseScore it - α * dist lc c
            · have hstep : selectNextGo dist α maxLeg used lc (it :: rest)
                  (some (b0, bc0)) =
                  selectNextGo dist α maxLeg used lc rest
                    (some (it, baseScore it - α * dist lc c)) := by
                simp only [selectNextGo]
                rw [if_neg hu, hco]
                simp only [if_neg hd]
                rw [if_pos hlt]
              have hacc' : ∀ b bc,
                  (some (it, baseScore it - α * dist lc c) :
                    Option (RouteItem × ℚ)) = some (b, bc) →
                  admissibleNext dist maxLeg used lc b ∧
                    bc = compOf dist α lc b := by
                intro b bc h
                injection h with h
                injection h with h1 h2
                subst h1; subst h2
                exact ⟨hadm_it, hcomp_it⟩
              obtain ⟨p1, p2, p3⟩ := ih _ hacc'
              refine ⟨fun b bc h => p1 b bc (hstep ▸ h), ?_, ?_⟩
              · intro x hx hadm
                rcases List.mem_cons.mp hx with hx | hx
                · subst hx
                  obtain ⟨b', bc', hr, hle⟩ := p3 _ _ rfl
                  refine ⟨b', bc', hstep ▸ hr, ?_⟩
                  calc compOf dist α lc x = baseScore x - α * dist lc c :=
                        hcomp_it.symm
                    _ ≤ bc' := hle
                · obtain ⟨b, bc, hr, hle⟩ := p2 x hx hadm
                  exact ⟨b, bc, hstep ▸ hr, hle⟩
              · intro b bc h
                injection h with h
                injection h with h1 h2
                subst h1; subst h2
                obtain ⟨b', bc', hr, hle⟩ := p3 _ _ rfl
                exact ⟨b', bc', hstep ▸ hr, le_trans (le_of_lt hlt) hle⟩
            · have hstep : selectNextGo dist α maxLeg used lc (it :: rest)
                  (some (b0, bc0)) =
                  selectNextGo dist α maxLeg used lc rest
                    (some (b0, bc0)) := by
                simp only [selectNextGo]
                rw [if_neg hu, hco]
                simp only [if_neg hd]
                rw [if_neg hlt]
              have hacc' : ∀ b bc,
                  (some (b0, bc0) : Option (RouteItem × ℚ)) =
                    some (b, bc) →
                  admissibleNext dist maxLeg used lc b ∧
                    bc = compOf dist α lc b := by
                intro b bc h
                injection h with h
                injection h with h1 h2
                subst h1; subst h2
                exact ⟨hadm0, hbc0⟩
              obtain ⟨p1, p2, p3⟩ := ih _ hacc'
              refine ⟨fun b bc h => p1 b bc (hstep ▸ h), ?_, ?_⟩
              · intro x hx hadm
                rcases List.mem_cons.mp hx with hx | hx
                · subst hx
                  obtain ⟨b', bc', hr, hle⟩ := p3 _ _ rfl
                  refine ⟨b', bc', hstep ▸ hr, ?_⟩
                  calc compOf dist α lc x = baseScore x - α * dist lc c :=
                        hcomp_it.symm
                    _ ≤ bc0 := not_lt.mp hlt
                    _ ≤ bc' := hle
                · obtain ⟨b, bc, hr, hle⟩ := p2 x hx hadm
                  exact ⟨b, bc, hstep ▸ hr, hle⟩
              · intro b bc h
                injection h with h
                injection h with h1 h2
                subst h1; subst h2
                obtain ⟨b', bc', hr, hle⟩ := p3 _ _ rfl
                exact ⟨b', bc', hstep ▸ hr, hle⟩

/-- Helper: the scan's result comes from the list or is the untouched
accumulator. -/
theorem selectNextGo_mem (dist : Coord → Coord → ℚ) (α maxLeg : ℚ)
    (used : List Nat) (lc : Coord) :
    ∀ (l : List RouteItem) (acc : Option (RouteItem × ℚ))
      (b : RouteItem) (bc : ℚ),
      selectNextGo dist α maxLeg used lc l acc = some (b, bc) →
      b ∈ l ∨ acc = some (b, bc) := by
  intro l
  induction l with
  | nil =>
    intro acc b bc h
    simp only [selectNextGo] at h
    exact Or.inr h
  | cons it rest ih =>
    intro acc b bc h
    have lift : ∀ (acc' : Option (RouteItem × ℚ)),
        selectNextGo dist α maxLeg used lc rest acc' = some (b, bc) →
        (acc' = acc ∨ ∃ q, acc' = some (it, q)) →
        b ∈ it :: rest ∨ acc = some (b, bc) := by
      intro acc' hr hcase
      rcases ih acc' b bc hr with hm | hm
      · exact Or.inl (List.mem_cons_of_mem _ hm)
      · rcases hcase with hc | ⟨q, hc⟩
        · exact Or.inr (hc ▸ hm)
        · rw [hc] at hm
          injection hm with hm
          injection hm with h1 _
          exact Or.inl (h1 ▸ List.mem_cons_self _ _)
    by_cases hu : used.contains it.origIdx
    · have hstep : selectNextGo dist α maxLeg used lc (it :: rest) acc =
          selectNextGo dist α maxLeg used lc rest acc := by
        simp only [selectNextGo]; rw [if_pos hu]
      exact lift acc (hstep ▸ h) (Or.inl rfl)
    · cases hco : it.coord with
      | none =>
        have hstep : selectNextGo dist α maxLeg used lc (it :: rest) acc =
            selectNextGo dist α maxLeg used lc rest acc := by
          simp only [selectNextGo]; rw [if_neg hu, hco]
        exact lift acc (hstep ▸ h) (Or.inl rfl)
      | some c =>
        by_cases hd : maxLeg < dist lc c
        · have hstep : selectNextGo dist α maxLeg used lc (it :: rest)
              acc = selectNextGo dist α maxLeg used lc rest acc := by
            simp only [selectNextGo]; rw [if_neg hu, hco]
            simp only [if_pos hd]
          exact lift acc (hstep ▸ h) (Or.inl rfl)
        · cases hax : acc with
          | none =>
            have hstep : selectNextGo dist α maxLeg used lc (it :: rest)
                none =
                selectNextGo dist α maxLeg used lc rest
                  (some (it, baseScore it - α * dist lc c)) := by
              simp only [selectNextGo]; rw [if_neg hu, hco]
              simp only [if_neg hd]
            rw [hax] at h
            rcases lift _ (hstep ▸ h) (Or.inr ⟨_, rfl⟩) with hm | hm
            · exact Or.inl hm
            · rw [hax] at hm
              exact Or.inr hm
          | some p =>
            obtain ⟨b0, bc0⟩ := p
            rw [hax] at h
            by_cases hlt : bc0 < baseScore it - α * dist lc c
            · have hstep : selectNextGo dist α maxLeg used lc (it :: rest)
                  (some (b0, bc0)) =
                  selectNextGo dist α maxLeg used lc rest
                    (some (it, baseScore it - α * dist lc c)) := by
                simp only [selectNextGo]; rw [if_neg hu, hco]
                simp only [if_neg hd]
                rw [if_pos hlt]
              exact (lift _ (hstep ▸ h) (Or.inr ⟨_, rfl⟩)).imp id
                (fun hm => hax ▸ hm)
            · have hstep : selectNextGo dist α maxLeg used lc (it :: rest)
                  (some (b0, bc0)) =
                  selectNextGo dist α maxLeg used lc rest
                    (some (b0, bc0)) := by
                simp only [selectNextGo]; rw [if_neg hu, hco]
                simp only [if_neg hd]
                rw [if_neg hlt]
              rcases ih _ b bc (hstep ▸ h) with hm | hm
              · exact Or.inl (List.mem_cons_of_mem _ hm)
              · exact Or.inr (hax ▸ hm)

/-- C2 amended: at every extension step of the non-timeline cost-greedy
sequencer, the chosen next stop is an unvisited candidate with a usable
coordinate within the mode's maximum leg distance of the current stop —
but it MAXIMISES the composite `routeScore − distanceWeight × distance`
over all such candidates (the source never computes
`travelMinutes + expectedWaitMinutes`). -/
theorem greedy_step_maximises_composite (dist : Coord → Coord → ℚ)
    (α maxLeg : ℚ) (items : List RouteItem) (used : List Nat) (lc : Coord)
    (it : RouteItem)
    (h : selectNext dist α maxLeg items used lc = some it) :
    it ∈ items ∧ used.contains it.origIdx = false ∧
      (∃ c, it.coord = some c ∧ dist lc c ≤ maxLeg) ∧
      (∀ x ∈ items, used.contains x.origIdx = false →
        ∀ c, x.coord = some c → dist lc c ≤ maxLeg →
          compOf dist α lc x ≤ compOf dist α lc it) := by
  obtain ⟨⟨b, bc⟩, hgo, hb⟩ := Option.map_eq_some'.mp h
  subst hb
  obtain ⟨p1, p2, -⟩ := selectNextGo_spec dist α maxLeg used lc items none
    (fun b bc h => absurd h (by simp))
  obtain ⟨⟨hunused, c0, hc0, hd0⟩, hbc⟩ := p1 b bc hgo
  have hmem : b ∈ items := by
    rcases selectNextGo_mem dist α maxLeg used lc items none b bc hgo with
      hm | hm
    · exact hm
    · exact absurd hm (by simp)
  refine ⟨hmem, hunused, ⟨c0, hc0, hd0⟩, ?_⟩
  intro x hx hxu c hc hdc
  obtain ⟨b', bc', hr', hle'⟩ := p2 x hx ⟨hxu, c, hc, hdc⟩
  rw [hgo] at hr'
  injection hr' with hr'
  injection hr' with h1 h2
  subst h1; subst h2
  rw [hbc] at hle'
  exact hle'

/-- C2, counterexample: in the concrete three-item walk scenario the
sequencer's second stop is item 2 (composite 10 − 0.8·0.2) although the
unvisited in-range candidate item 1 has a strictly smaller
`travelMinutes + expectedWaitMinutes` (1.5 + 0 versus 3 + 0): the greedy
step does not minimise that cost. -/
theorem greedy_step_not_min_cost :
    (orderBakeriesByRouteDistance distMan exRouteItems none "walk").map
        (·.origIdx) = [0, 2, 1] ∧
      distMan (0, 0) (0, 1/10) ≤ maxLegDistanceKm "walk" ∧
      estimateTravelTimeMinutes (distMan (0, 0) (0, 1/10)) "walk" +
          exItemA.waitMinutes <
        estimateTravelTimeMinutes (distMan (0, 0) (0, 2/10)) "walk" +
          exItemB.waitMinutes := by
  refine ⟨?_, ?_, ?_⟩ <;>
    norm_num [orderBakeriesByRouteDistance, selectStartItem, routeLoop,
      selectNext, selectNextGo, maxByBase, baseScore, distMan, ratAbs,
      exRouteItems, exItemX, exItemA, exItemB, maxLegDistanceKm,
      distanceWeight, estimateTravelTimeMinutes]

/-- Witness for `greedy_step_maximises_composite`: at the step after
the start stop of the walk scenario, the chosen item 2 has composite at
least that of the admissible item 1. -/
theorem greedy_step_maximises_composite_witness :
    compOf distMan (4/5) (0, 0) exItemA ≤
      compOf distMan (4/5) (0, 0) exItemB := by
  have h := greedy_step_maximises_composite distMan (4/5) 1 exRouteItems
    [0] (0, 0) exItemB
    (by norm_num [selectNext, selectNextGo, exRouteItems, exItemX,
      exItemA, exItemB, baseScore, distMan, ratAbs])
  exact h.2.2.2 exItemA (by simp [exRouteItems]) (by decide) (0, 1/10)
    rfl (by norm_num [distMan, ratAbs])

/-- Helper: every consecutive pair produced by the walk-mode extension
loop (including the pair formed with the current stop) is a feasible
leg: both ends have coordinates within `maxLeg` of each other. -/
theorem routeLoop_walk_chain (dist : Coord → Coord → ℚ) (α maxLeg : ℚ)
    (items : List RouteItem) :
    ∀ (fuel : Nat) (used : List Nat) (last : RouteItem),
      List.Chain'
        (fun a b => ∃ ca cb, a.coord = some ca ∧ b.coord = some cb ∧
          dist ca cb ≤ maxLeg)
        (last :: routeLoop dist α maxLeg "walk" items fuel used last) := by
  intro fuel
  induction fuel with
  | zero =>
    intro used last
    simp [routeLoop]
  | succ fuel ih =>
    intro used last
    by_cases hl : used.length < items.length
    · cases hlc : last.coord with
      | none =>
        have hstep : routeLoop dist α maxLeg "walk" items (fuel + 1)
            used last = [] := by
          simp only [routeLoop]
          rw [if_pos hl, hlc]
        rw [hstep]
        simp
      | some lc =>
        cases hsn : selectNext dist α maxLeg items used lc with
        | none =>
          have hstep : routeLoop dist α maxLeg "walk" items (fuel + 1)
              used last = [] := by
            simp only [routeLoop]
            rw [if_pos hl, hlc]
            simp [hsn]
          rw [hstep]
          simp
        | some nxt =>
          have hstep : routeLoop dist α maxLeg "walk" items (fuel + 1)
              used last =
              nxt :: routeLoop dist α maxLeg "walk" items fuel
                (nxt.origIdx :: used) nxt := by
            simp only [routeLoop]
            rw [if_pos hl, hlc]
            simp [hsn]
          rw [hstep]
          obtain ⟨-, -, ⟨c, hc, hdc⟩, -⟩ :=
            greedy_step_maximises_composite dist α maxLeg items used lc
              nxt hsn
          exact List.chain'_cons.mpr
            ⟨⟨lc, c, hlc, hc, hdc⟩, ih (nxt.origIdx :: used) nxt⟩
    · have hstep : routeLoop dist α maxLeg "walk" items (fuel + 1)
          used last = [] := by
        simp only [routeLoop]
        rw [if_neg hl]
      rw [hstep]
      simp

/-- C8: the walking mode's maximum leg distance is 1.0 km (20 minutes
at 3 km/h); in walk mode every pair of consecutive itinerary stops has
coordinates within that distance of each other; and when no unvisited
candidate is in range the tour ends outright — in a concrete two-item
scenario with the second item 2 km away, the walk itinerary is just the
start stop, the far candidate is not appended. -/
theorem walk_mode_leg_invariant :
    maxLegDistanceKm "walk" = 1 ∧
    (∀ (dist : Coord → Coord → ℚ) (items : List RouteItem)
        (origin : Option Coord),
      List.Chain'
        (fun a b => ∃ ca cb, a.coord = some ca ∧ b.coord = some cb ∧
          dist ca cb ≤ maxLegDistanceKm "walk")
        (orderBakeriesByRouteDistance dist items origin "walk")) ∧
    orderBakeriesByRouteDistance distMan
        [⟨0, some (0, 0), 100, 0, 0⟩, ⟨1, some (0, 2), 50, 0, 0⟩]
        none "walk" =
      [⟨0, some (0, 0), 100, 0, 0⟩] := by
  refine ⟨by norm_num [maxLegDistanceKm], ?_, ?_⟩
  · intro dist items origin
    unfold orderBakeriesByRouteDistance
    split
    · exact List.chain'_nil
    · cases hstart : selectStartItem dist (distanceWeight "walk") items
          origin with
      | none => exact List.chain'_nil
      | some start =>
        exact routeLoop_walk_chain dist (distanceWeight "walk")
          (maxLegDistanceKm "walk") items items.length [start.origIdx]
          start
  · norm_num [orderBakeriesByRouteDistance, selectStartItem, routeLoop,
      selectNext, selectNextGo, maxByBase, baseScore, distMan, ratAbs,
      maxLegDistanceKm, distanceWeight]

/-- Helper: an insertion-based sort permutes its input (generic over
the insertion function). -/
theorem foldl_insert_perm {α : Type} (ins : α → List α → List α)
    (hins : ∀ x l, (ins x l).Perm (x :: l)) :
    ∀ (l acc : List α),
      (l.foldl (fun acc x => ins x acc) acc).Perm (acc ++ l) := by
  intro l
  induction l with
  | nil => intro acc; simp
  | cons x xs ih =>
    intro acc
    simp only [List.foldl_cons]
    refine ((ih (ins x acc)).trans ?_)
    refine (List.Perm.append_right xs (hins x acc)).trans ?_
    exact (List.perm_middle).symm

/-- Helper: `insertDescSubway` inserts, up to permutation. -/
theorem insertDescSubway_perm (x : SubwayItem) :
    ∀ l, (insertDescSubway x l).Perm (x :: l) := by
  intro l
  induction l with
  | nil => simp [insertDescSubway]
  | cons y ys ih =>
    simp only [insertDescSubway]
    split
    · exact List.Perm.refl _
    · exact (ih.cons y).trans (List.Perm.swap x y ys)

/-- Helper: the descending score sort permutes its input. -/
theorem sortDescSubway_perm (l : List SubwayItem) :
    (sortDescSubway l).Perm l := by
  simpa using foldl_insert_perm insertDescSubway insertDescSubway_perm l []

/-- Helper: `insertFinal` inserts, up to permutation. -/
theorem insertFinal_perm (x : SubwayItem) :
    ∀ l, (insertFinal x l).Perm (x :: l) := by
  intro l
  induction l with
  | nil => simp [insertFinal]
  | cons y ys ih =>
    simp only [insertFinal]
    split
    · exact List.Perm.refl _
    · exact (ih.cons y).trans (List.Perm.swap x y ys)

/-- Helper: the final visiting-order sort permutes its input. -/
theorem sortFinal_perm (l : List SubwayItem) : (sortFinal l).Perm l := by
  simpa using foldl_insert_perm insertFinal insertFinal_perm l []

/-- Helper: `insertAscNat` inserts, up to permutation. -/
theorem insertAscNat_perm (x : Nat) :
    ∀ l, (insertAscNat x l).Perm (x :: l) := by
  intro l
  induction l with
  | nil => simp [insertAscNat]
  | cons y ys ih =>
    simp only [insertAscNat]
    split
    · exact List.Perm.refl _
    · exact (ih.cons y).trans (List.Perm.swap x y ys)

/-- Helper: dedup keeps values apart from `seen` and without repeats. -/
theorem dedupNatGo_nodup :
    ∀ (l seen : List Nat),
      (dedupNatGo seen l).Nodup ∧
        ∀ x ∈ dedupNatGo seen l, ¬ seen.contains x := by
  intro l
  induction l with
  | nil => intro seen; simp [dedupNatGo]
  | cons x xs ih =>
    intro seen
    by_cases hc : seen.contains x
    · have hstep : dedupNatGo seen (x :: xs) = dedupNatGo seen xs := by
        simp only [dedupNatGo]; rw [if_pos hc]
      rw [hstep]
      exact ih seen
    · have hstep : dedupNatGo seen (x :: xs) =
          x :: dedupNatGo (x :: seen) xs := by
        simp only [dedupNatGo]; rw [if_neg hc]
      rw [hstep]
      obtain ⟨hnd, hout⟩ := ih (x :: seen)
      refine ⟨List.nodup_cons.mpr ⟨fun hm => ?_, hnd⟩, ?_⟩
      · exact hout x hm (by simp)
      · intro y hy
        rcases List.mem_cons.mp hy with hy | hy
        · subst hy; exact hc
        · intro hyc
          exact hout y hy (by
            rcases List.elem_iff.mp hyc with h
            exact List.elem_iff.mpr (List.mem_cons_of_mem _ h))

/-- Helper: the sorted distinct station-index list has no repeats. -/
theorem stationIndices_nodup (items : List SubwayItem) :
    (stationIndices items).Nodup := by
  have hperm : (stationIndices items).Perm
      (dedupNatGo [] (items.filterMap (·.stationIndex))) := by
    simpa using foldl_insert_perm insertAscNat insertAscNat_perm
      (dedupNatGo [] (items.filterMap (·.stationIndex))) []
  exact hperm.nodup_iff.mpr (dedupNatGo_nodup _ []).1

/-- Helper: weak totality of the visiting-order key. -/
theorem subwayKeyLe_of_not_lt {x y : SubwayItem}
    (h : ¬ subwayKeyLt x y) : subwayKeyLe y x := by
  unfold subwayKeyLt at h
  unfold subwayKeyLe
  push_neg at h
  rcases Nat.lt_trichotomy (y.stationIndex.getD 0) (x.stationIndex.getD 0)
    with hlt | heq | hgt
  · exact Or.inl hlt
  · exact Or.inr ⟨heq, h.2 heq.symm⟩
  · exact absurd hgt (not_lt.mpr h.1)

/-- Helper: the strict key implies the weak key. -/
theorem subwayKeyLe_of_lt {x y : SubwayItem} (h : subwayKeyLt x y) :
    subwayKeyLe x y := by
  rcases h with h | ⟨he, hs⟩
  · exact Or.inl h
  · exact Or.inr ⟨he, le_of_lt hs⟩

/-- Helper: transitivity of the weak key. -/
theorem subwayKeyLe_trans {x y z : SubwayItem} (h1 : subwayKeyLe x y)
    (h2 : subwayKeyLe y z) : subwayKeyLe x z := by
  unfold subwayKeyLe at *
  rcases h1 with h1 | ⟨he1, hs1⟩ <;> rcases h2 with h2 | ⟨he2, hs2⟩
  · exact Or.inl (lt_trans h1 h2)
  · exact Or.inl (he2 ▸ h1)
  · exact Or.inl (he1 ▸ h2)
  · exact Or.inr ⟨he1.trans he2, le_trans hs2 hs1⟩

/-- Helper: insertion preserves sortedness for the visiting-order
key. -/
theorem insertFinal_sorted (x : SubwayItem) :
    ∀ l, l.Pairwise subwayKeyLe →
      (insertFinal x l).Pairwise subwayKeyLe := by
  intro l
  induction l with
  | nil => intro _; simp [insertFinal]
  | cons y ys ih =>
    intro hp
    obtain ⟨hy, hys⟩ := List.pairwise_cons.mp hp
    simp only [insertFinal]
    split
    · rename_i hlt
      refine List.pairwise_cons.mpr ⟨?_, hp⟩
      intro z hz
      rcases List.mem_cons.mp hz with hz | hz
      · exact hz ▸ subwayKeyLe_of_lt hlt
      · exact subwayKeyLe_trans (subwayKeyLe_of_lt hlt) (hy z hz)
    · rename_i hnlt
      refine List.pairwise_cons.mpr ⟨?_, ih hys⟩
      intro z hz
      rcases List.mem_cons.mp ((insertFinal_perm x ys).mem_iff.mp hz)
        with hz | hz
      · exact hz ▸ subwayKeyLe_of_not_lt hnlt
      · exact hy z hz

/-- Helper: the final sort is sorted by `(station_index, -score)`. -/
theorem sortFinal_sorted (l : List SubwayItem) :
    (sortFinal l).Pairwise subwayKeyLe := by
  suffices h : ∀ (l acc : List SubwayItem), acc.Pairwise subwayKeyLe →
      (l.foldl (fun acc x => insertFinal x acc) acc).Pairwise subwayKeyLe by
    exact h l [] (by simp)
  intro l
  induction l with
  | nil => intro acc hacc; simpa using hacc
  | cons x xs ih =>
    intro acc hacc
    simp only [List.foldl_cons]
    exact ih _ (insertFinal_sorted x acc hacc)

/-- Helper: whatever the interval search returns was produced by
`evaluateInterval` on the returned interval. -/
theorem bestInterval_fold_spec (items : List SubwayItem) (K N : Nat) :
    ∀ (ps : List (Nat × Nat))
      (st : ℚ × Option ((Nat × Nat) × List SubwayItem)),
      (∀ L R sel, st.2 = some ((L, R), sel) →
        sel = (evaluateInterval items K N L R).2) →
      ∀ L R sel,
        (ps.foldl
          (fun st p =>
            let t := (evaluateInterval items K N p.1 p.2).1
            let sel := (evaluateInterval items K N p.1 p.2).2
            if t ≤ 0 ∨ sel.isEmpty then st
            else if st.1 < t then (t, some (p, sel))
            else st) st).2 = some ((L, R), sel) →
        sel = (evaluateInterval items K N L R).2 := by
  intro ps
  induction ps with
  | nil => intro st hst L R sel h; exact hst L R sel h
  | cons p rest ih =>
    intro st hst L R sel h
    simp only [List.foldl_cons] at h
    refine ih _ ?_ L R sel h
    intro L' R' sel' hc
    simp only [] at hc
    split_ifs at hc with h1 h2
    · exact hst _ _ _ hc
    · simp only [] at hc
      injection hc with hc
      injection hc with hc1 hc2
      subst hc2
      cases p with
      | mk a b =>
        injection hc1 with ha hb
        subst ha; subst hb
        rfl
    · exact hst _ _ _ hc

/-- Helper: the selection stored by the interval search. -/
theorem bestInterval_sel (items : List SubwayItem) (K N L R : Nat)
    (sel : List SubwayItem)
    (h : (bestInterval items K N).2 = some ((L, R), sel)) :
    sel = (evaluateInterval items K N L R).2 := by
  unfold bestInterval at h
  exact bestInterval_fold_spec items K N _ _
    (fun L R sel hc => absurd hc (by simp)) L R sel h

/-- Helper: a bucket member is assigned to that station. -/
theorem mem_stationBucket (items : List SubwayItem) (idx : Nat)
    (x : SubwayItem) (h : x ∈ stationBucket items idx) :
    x.stationIndex = some idx := by
  unfold stationBucket at h
  have hmem := (sortDescSubway_perm _).mem_iff.mp h
  have hp := List.of_mem_filter hmem
  simpa using hp

/-- Helper: the interval's raw collection holds at most `K` items per
station. -/
theorem countP_flatMap_buckets (items : List SubwayItem) (K s : Nat) :
    ∀ (idxs : List Nat), idxs.Nodup →
      ((idxs.flatMap fun idx => (stationBucket items idx).take K).countP
        fun b => b.stationIndex == some s) ≤ K := by
  intro idxs
  induction idxs with
  | nil => intro _; simp
  | cons idx rest ih =>
    intro hnd
    obtain ⟨hni, hnd'⟩ := List.nodup_cons.mp hnd
    rw [List.flatMap_cons, List.countP_append]
    by_cases hs : idx = s
    · subst hs
      have h1 : ((stationBucket items idx).take K).countP
          (fun b => b.stationIndex == some idx) ≤ K :=
        le_trans (List.countP_le_length _)
          (List.length_take_le K (stationBucket items idx))
      have h2 : ((rest.flatMap fun i => (stationBucket items i).take K).countP
          fun b => b.stationIndex == some idx) = 0 := by
        rw [List.countP_eq_zero]
        intro a ha
        obtain ⟨i, hi, hai⟩ := List.mem_flatMap.mp ha
        have hsi2 := mem_stationBucket items i a
          (List.take_subset _ _ hai)
        simp only [hsi2, beq_iff_eq, Option.some.injEq]
        intro he
        exact hni (he ▸ hi)
      omega
    · have h1 : ((stationBucket items idx).take K).countP
          (fun b => b.stationIndex == some s) = 0 := by
        rw [List.countP_eq_zero]
        intro a ha
        have hsi2 := mem_stationBucket items idx a
          (List.take_subset _ _ ha)
        simp only [hsi2, beq_iff_eq, Option.some.injEq]
        intro he
        exact hs he
      have h2 := ih hnd'
      omega

/-- Helper: with a best interval found, the tour is the final sort of
its selection. -/
theorem buildSubway_of_best (items : List SubwayItem) (K N L R : Nat)
    (sel : List SubwayItem)
    (hne : items.isEmpty = false)
    (hsi : (stationIndices items).isEmpty = false)
    (hbest : (bestInterval items K N).2 = some ((L, R), sel)) :
    buildSubwayContiguousTour items K N = sortFinal sel := by
  unfold buildSubwayContiguousTour
  rw [if_neg (by simp [hne]), if_neg (by simp [hsi]), hbest]

/-- C6 amended: whenever the interval search finds a non-empty best
interval `[L, R]`, the returned itinerary's stop indices all lie inside
that single contiguous interval (they need not cover every index in
it), the sequence is sorted by `(station index, −score)` — station
indices monotonically non-decreasing, ties by descending score — with
at most `K` selected candidates per stop and at most `N` in total. -/
theorem subway_interval_selection (items : List SubwayItem)
    (K N L R : Nat) (sel : List SubwayItem)
    (hne : items.isEmpty = false)
    (hsi : (stationIndices items).isEmpty = false)
    (hbest : (bestInterval items K N).2 = some ((L, R), sel)) :
    (∀ b ∈ buildSubwayContiguousTour items K N,
      ∃ si, b.stationIndex = some si ∧ L ≤ si ∧ si ≤ R) ∧
    (buildSubwayContiguousTour items K N).Pairwise subwayKeyLe ∧
    (∀ s, ((buildSubwayContiguousTour items K N).countP
      fun b => b.stationIndex == some s) ≤ K) ∧
    (buildSubwayContiguousTour items K N).length ≤ N := by
  rw [buildSubway_of_best items K N L R sel hne hsi hbest]
  have hselveq := bestInterval_sel items K N L R sel hbest
  have hsnd : (evaluateInterval items K N L R).2 = [] ∨
      (evaluateInterval items K N L R).2 =
        (sortDescSubway
          (((stationIndices items).filter fun idx =>
              decide (L ≤ idx) && decide (idx ≤ R)).flatMap
            fun idx => (stationBucket items idx).take K)).take N := by
    unfold evaluateInterval
    dsimp only []
    split_ifs
    · exact Or.inl rfl
    · exact Or.inr rfl
  rcases hsnd with hsnd | hsnd
  · rw [hselveq, hsnd]
    refine ⟨by simp [sortFinal], by simp [sortFinal], ?_, by simp [sortFinal]⟩
    intro s
    simp [sortFinal]
  · rw [hselveq, hsnd]
    set raw := ((stationIndices items).filter fun idx =>
        decide (L ≤ idx) && decide (idx ≤ R)).flatMap
      fun idx => (stationBucket items idx).take K with hraw
    refine ⟨?_, sortFinal_sorted _, ?_, ?_⟩
    · intro b hb
      have hb1 : b ∈ (sortDescSubway raw).take N :=
        (sortFinal_perm _).mem_iff.mp hb
      have hb2 : b ∈ raw :=
        (sortDescSubway_perm raw).mem_iff.mp
          (List.take_subset _ _ hb1)
      obtain ⟨idx, hidx, hbidx⟩ := List.mem_flatMap.mp hb2
      have hfi := List.of_mem_filter hidx
      simp only [Bool.and_eq_true, decide_eq_true_eq] at hfi
      exact ⟨idx, mem_stationBucket items idx b
        (List.take_subset _ _ hbidx), hfi.1, hfi.2⟩
    · intro s
      have hperm := (sortFinal_perm ((sortDescSubway raw).take N))
      rw [hperm.countP_eq]
      calc ((sortDescSubway raw).take N).countP
            (fun b => b.stationIndex == some s)
          ≤ (sortDescSubway raw).countP
              (fun b => b.stationIndex == some s) :=
            (List.take_sublist _ _).countP_le _
        _ = raw.countP (fun b => b.stationIndex == some s) :=
            (sortDescSubway_perm raw).countP_eq _
        _ ≤ K := countP_flatMap_buckets items K s _
            ((stationIndices_nodup items).filter _)
    · rw [(sortFinal_perm _).length_eq]
      exact List.length_take_le N (sortDescSubway raw)

/-- C6, counterexample: with candidates only at stations 0 and 2, the
best interval is [0, 2] and the returned stop indices are {0, 2} — they
span the interval but do NOT form a contiguous range: index 1, strictly
between the minimum and maximum returned indices, is absent. -/
theorem subway_indices_not_contiguous :
    (bestInterval exSubItems 3 10).2 =
        some ((0, 2), [⟨0, some 0, 5⟩, ⟨1, some 2, 4⟩]) ∧
      (buildSubwayContiguousTour exSubItems 3 10).map (·.stationIndex) =
        [some 0, some 2] ∧
      some 0 ∈ (buildSubwayContiguousTour exSubItems 3 10).map
        (·.stationIndex) ∧
      some 2 ∈ (buildSubwayContiguousTour exSubItems 3 10).map
        (·.stationIndex) ∧
      some 1 ∉ (buildSubwayContiguousTour exSubItems 3 10).map
        (·.stationIndex) := by
  refine ⟨?_, ?_, ?_, ?_, ?_⟩ <;>
    norm_num +decide [buildSubwayContiguousTour, bestInterval,
      intervalPairs, stationIndices, evaluateInterval, stationBucket,
      sortDescSubway, insertDescSubway, insertAscNat, sortFinal,
      insertFinal, subwayKeyLt, exSubItems, dedupNatGo]

/-- Witness for `subway_interval_selection` at the concrete two-station
example (best interval [0, 2], caps 3 per stop and 10 total). -/
theorem subway_interval_selection_witness :
    (buildSubwayContiguousTour exSubItems 3 10).length ≤ 10 := by
  have hbest : (bestInterval exSubItems 3 10).2 =
      some ((0, 2), [⟨0, some 0, 5⟩, ⟨1, some 2, 4⟩]) := by
    norm_num +decide [bestInterval, intervalPairs, stationIndices,
      evaluateInterval, stationBucket, sortDescSubway, insertDescSubway,
      insertAscNat, exSubItems, dedupNatGo]
  exact (subway_interval_selection exSubItems 3 10 0 2
    [⟨0, some 0, 5⟩, ⟨1, some 2, 4⟩] (by decide)
    (by norm_num +decide [stationIndices, insertAscNat, dedupNatGo,
      exSubItems]) hbest).2.2.2

end Tripsnap
